import Mathlib

/-!
Verification development for the minesweeper knowledge-base engine
(`minesweeper.py`: classes `Sentence` and `MinesweeperAI`).

The embedding keeps the source's structure: Python `set` becomes `Finset`,
Python `int` becomes `Int`, the mutable `self.knowledge` list becomes an
explicit `List Sentence` threaded through the state type `AI`.  In-place
mutation of a sentence shared through the knowledge list is modelled as a
positional update of that list entry, which is faithful because the list
never holds the same object twice (every append adds a freshly constructed
sentence).  Iteration over a Python `set` is modelled by `cellList`, a sorted
enumeration; every place this is used, the per-element operations commute, so
the unspecified set order of CPython is observationally irrelevant.
-/

set_option maxHeartbeats 1000000

namespace Mines

/-- A board cell `(i, j)`; Python int coordinates. -/
abbrev Cell : Type := Int × Int

/-- `class Sentence`: `self.cells = set(cells)`, `self.count = count`.
The constructor stores both fields verbatim; the source performs no
validation of `count` against `cells`. -/
structure Sentence where
  cells : Finset Cell
  count : Int
deriving DecidableEq

/-- `Sentence.known_mines`: `self.cells` if `len(self.cells) == self.count`, else `set()`. -/
def Sentence.known_mines (s : Sentence) : Finset Cell :=
  if (s.cells.card : Int) = s.count then s.cells else ∅

/-- `Sentence.known_safes`: `self.cells` if `self.count == 0`, else `set()`. -/
def Sentence.known_safes (s : Sentence) : Finset Cell :=
  if s.count = 0 then s.cells else ∅

/-- `Sentence.mark_mine`: if `cell in self.cells`, remove it and decrement `count`. -/
def Sentence.mark_mine (s : Sentence) (cell : Cell) : Sentence :=
  if cell ∈ s.cells then ⟨s.cells.erase cell, s.count - 1⟩ else s

/-- `Sentence.mark_safe`: if `cell in self.cells`, remove it (count unchanged). -/
def Sentence.mark_safe (s : Sentence) (cell : Cell) : Sentence :=
  if cell ∈ s.cells then ⟨s.cells.erase cell, s.count⟩ else s

/-- `Sentence.is_subset`: true iff `self.cells != other.cells` and
`self.cells.issubset(other.cells)`. -/
def Sentence.is_subset (s other : Sentence) : Bool :=
  if s.cells ≠ other.cells ∧ s.cells ⊆ other.cells then true else false

/-- `Sentence.infer_new_sentance`: `Sentence(other.cells − self.cells, other.count − self.count)`. -/
def Sentence.infer_new_sentance (s other : Sentence) : Sentence :=
  ⟨other.cells \ s.cells, other.count - s.count⟩

/-- Python `range(a, b)` over ints, as a list. -/
def intRange (a b : Int) : List Int :=
  (List.range (b - a).toNat).map fun (k : Nat) => a + (k : Int)

/-- The in-bounds cells visited by the double loop of `add_knowledge`
(`range(max(0, cell[0]-1), min(cell[0]+2, height))` ×
 `range(max(0, cell[1]-1), min(cell[1]+2, width))`), the observed cell
excluded: this is the set `neibouring_cells` the source builds. -/
def neighborsOf (height width : Int) (cell : Cell) : Finset Cell :=
  (((intRange (max 0 (cell.1 - 1)) (min (cell.1 + 2) height)).flatMap fun i =>
    (intRange (max 0 (cell.2 - 1)) (min (cell.2 + 2) width)).map fun j =>
      ((i, j) : Cell)).toFinset).erase cell

/-- Whether `(i, j) == cell` occurs in the double loop of `add_knowledge`,
i.e. whether the branch adding `cell` to `moves_made` and marking it safe runs. -/
def selfVisited (height width : Int) (cell : Cell) : Bool :=
  decide (cell.1 ∈ intRange (max 0 (cell.1 - 1)) (min (cell.1 + 2) height)) &&
  decide (cell.2 ∈ intRange (max 0 (cell.2 - 1)) (min (cell.2 + 2) width))

/-- Lexicographic order on cells, used to enumerate a Python `set` of cells
deterministically.  CPython's set order is unspecified; every fold the model
performs over such an enumeration commutes between distinct elements, so any
fixed enumeration is observationally faithful. -/
def cellLe (a b : Cell) : Prop :=
  a.1 < b.1 ∨ (a.1 = b.1 ∧ a.2 ≤ b.2)

instance : DecidableRel cellLe := fun a b => by
  unfold cellLe; infer_instance

instance : IsTrans Cell cellLe := by
  constructor
  intro a b c hab hbc
  rcases hab with h1 | ⟨h1, h2⟩ <;> rcases hbc with h3 | ⟨h3, h4⟩ <;>
    unfold cellLe <;> omega

instance : IsAntisymm Cell cellLe := by
  constructor
  intro a b hab hba
  have h1 : a.1 = b.1 := by rcases hab with h | h <;> rcases hba with h2 | h2 <;> omega
  have h2 : a.2 = b.2 := by rcases hab with h | h <;> rcases hba with h3 | h3 <;> omega
  exact Prod.ext h1 h2

instance : IsTotal Cell cellLe := by
  constructor
  intro a b
  unfold cellLe
  omega

/-- Enumerate a `Finset` of cells as a list (models iterating a Python set).
Insertion sort is used (rather than `Finset.sort`) so that the enumeration
reduces inside the kernel; sorting makes the choice of representative
irrelevant. -/
def cellList (s : Finset Cell) : List Cell :=
  Quot.liftOn s.val (fun l => List.insertionSort cellLe l) fun l1 l2 h =>
    List.eq_of_perm_of_sorted
      ((List.perm_insertionSort cellLe l1).trans
        (h.trans (List.perm_insertionSort cellLe l2).symm))
      (List.sorted_insertionSort cellLe l1)
      (List.sorted_insertionSort cellLe l2)

/-- `class MinesweeperAI` state: `height`, `width`, `moves_made`, `mines`,
`safes`, `knowledge`. -/
structure AI where
  height : Int
  width : Int
  moves_made : Finset Cell
  mines : Finset Cell
  safes : Finset Cell
  knowledge : List Sentence

/-- `MinesweeperAI.__init__` (with explicit dimensions): all sets empty,
empty knowledge list. -/
def initialAI (height width : Int) : AI :=
  ⟨height, width, ∅, ∅, ∅, []⟩

/-- `MinesweeperAI.mark_mine`: add to `self.mines`, call `Sentence.mark_mine`
on every sentence in `self.knowledge`. -/
def AI.mark_mine (ai : AI) (cell : Cell) : AI :=
  { ai with
    mines := insert cell ai.mines
    knowledge := ai.knowledge.map fun s => s.mark_mine cell }

/-- `MinesweeperAI.mark_safe`: add to `self.safes`, call `Sentence.mark_safe`
on every sentence in `self.knowledge`. -/
def AI.mark_safe (ai : AI) (cell : Cell) : AI :=
  { ai with
    safes := insert cell ai.safes
    knowledge := ai.knowledge.map fun s => s.mark_safe cell }

/-- `MinesweeperAI.inference_1`: all sentences `s1.infer_new_sentance(s2)`
for pairs with `s1.is_subset(s2)`. -/
def inference_1 (kn : List Sentence) : List Sentence :=
  kn.flatMap fun s1 =>
    (kn.filter fun s2 => s1.is_subset s2).map fun s2 => s1.infer_new_sentance s2

/-- `MinesweeperAI.inference_2`: sentences whose `known_safes()` is non-empty. -/
def inference_2 (kn : List Sentence) : List Sentence :=
  kn.filter fun s => decide (s.known_safes ≠ ∅)

/-- `MinesweeperAI.inference_3`: sentences whose `known_mines()` is non-empty. -/
def inference_3 (kn : List Sentence) : List Sentence :=
  kn.filter fun s => decide (s.known_mines ≠ ∅)

/-- Python `list.remove(v)`: drop the first element equal (by value) to `v`.
(`list.remove` raises `ValueError` when no element matches; in the passes
modelled here a matching element always exists — the removed value was just
appended, or was copied from the live list and only consumed once per copy —
so the total function is observationally faithful.) -/
def removeFirst (v : Sentence) : List Sentence → List Sentence
  | [] => []
  | s :: rest => if s = v then rest else s :: removeFirst v rest

/-- Inner loop of the subset-resolution pass of `add_knowledge`:
`for sentence_2 in self.knowledge.copy():` — the copy (`cp`) is fixed when the
inner loop starts, while `self.knowledge` (`kn`) keeps evolving through
`append(new_sentence)` followed by `remove(sentence_2)`. -/
def subsetInner (s1 : Sentence) : List Sentence → List Sentence → List Sentence
  | [], kn => kn
  | s2 :: rest, kn =>
    if s1.is_subset s2 then
      subsetInner s1 rest (removeFirst s2 (kn ++ [s1.infer_new_sentance s2]))
    else
      subsetInner s1 rest kn

/-- Outer loop of the subset-resolution pass:
`for sentence_1 in self.knowledge.copy():` — the outer copy is fixed at pass
start; each inner copy is the current knowledge when that inner loop starts. -/
def subsetOuter : List Sentence → List Sentence → List Sentence
  | [], kn => kn
  | s1 :: rest, kn => subsetOuter rest (subsetInner s1 kn kn)

/-- The whole subset-resolution pass of the while-loop body. -/
def subsetPass (kn : List Sentence) : List Sentence :=
  subsetOuter kn kn

/-- Second half of one step of the marking pass, at list position `i`:
`for cell in sentence.known_mines().copy(): self.mark_mine(cell)`.
The `known_mines()` snapshot is taken from the sentence as already mutated by
the preceding safe-marking (the same list slot re-read), exactly as in the
source, where `sentence` is the same in-place-mutated object. -/
def markStepMines (ai1 : AI) (i : Nat) : AI :=
  match ai1.knowledge[i]? with
  | none => ai1
  | some t => (cellList t.known_mines).foldl AI.mark_mine ai1

/-- One step of the marking pass of the while-loop body, at list position `i`:
`for cell in sentence.known_safes().copy(): self.mark_safe(cell)` and then
the `known_mines()` half. -/
def markStep (ai : AI) (i : Nat) : AI :=
  match ai.knowledge[i]? with
  | none => ai
  | some s => markStepMines ((cellList s.known_safes).foldl AI.mark_safe ai) i

/-- The marking pass: `for sentence in self.knowledge:` — the list structure
(length, order) is unchanged by marking, so the iteration visits each
position `0, …, len-1` once. -/
def markPass (ai : AI) : AI :=
  (List.range ai.knowledge.length).foldl markStep ai

/-- The empty-sentence removal pass:
`for sentence in self.knowledge: if sentence.cells == set(): self.knowledge.remove(sentence)`.
Python's list iterator keeps a position index while the list shrinks under it
(removing the element at the current position makes the iterator skip the
next one); `i` is that index. -/
def removalGo : Nat → List Sentence → Nat → List Sentence
  | 0, kn, _ => kn
  | fuel + 1, kn, i =>
    match kn[i]? with
    | none => kn
    | some s =>
      if s.cells = ∅ then
        removalGo fuel (removeFirst s kn) (i + 1)
      else
        removalGo fuel kn (i + 1)

/-- The removal pass over the whole list.  The iterator's index grows by one
each step and the list never grows, so the iterator is exhausted after at most
`kn.length` steps: that structural budget makes `removalGo` compute exactly
the loop's result. -/
def removalLoop (kn : List Sentence) (i : Nat) : List Sentence :=
  removalGo kn.length kn i

/-- The while-loop condition of `add_knowledge`:
`while self.inference_1() or self.inference_2() or self.inference_3():`
(a Python list is truthy iff non-empty). -/
def AI.loopCond (ai : AI) : Bool :=
  !(inference_1 ai.knowledge).isEmpty ||
  !(inference_2 ai.knowledge).isEmpty ||
  !(inference_3 ai.knowledge).isEmpty

/-- The while-loop body of `add_knowledge`: subset-resolution pass, then
marking pass, then empty-sentence removal pass. -/
def AI.loopBody (ai : AI) : AI :=
  let ai1 := { ai with knowledge := subsetPass ai.knowledge }
  let ai2 := markPass ai1
  { ai2 with knowledge := removalLoop ai2.knowledge 0 }

/-- The while loop itself, with an explicit iteration budget.  `add_knowledge`
invokes it with a provably sufficient budget (`loop_terminates` below), so the
budget never truncates the run and this computes the loop's actual result. -/
def AI.loopGo : Nat → AI → AI
  | 0, ai => ai
  | n + 1, ai => if ai.loopCond then AI.loopGo n ai.loopBody else ai

/-- The sentence built by `add_knowledge` from an observation `(cell, count)`:
`Sentence(neibouring_cells, count)`, then `mark_mine(mine)` for every known
mine, then `mark_safe(safe)` for every known safe.  By the time these run,
`self.mark_safe(cell)` has already executed, so the safe set iterated here
includes `cell` whenever the double loop visited it. -/
def AI.observedSentence (ai : AI) (cell : Cell) (count : Int) : Sentence :=
  let nbrs := neighborsOf ai.height ai.width cell
  let safesNow := if selfVisited ai.height ai.width cell then insert cell ai.safes else ai.safes
  (cellList safesNow).foldl Sentence.mark_safe
    ((cellList ai.mines).foldl Sentence.mark_mine (Sentence.mk nbrs count))

/-- Steps 1–4 of `add_knowledge` (everything before the while loop): the
double loop adds `cell` to `moves_made` and marks it safe when it visits it,
and collects the neighbours; the adjusted sentence is then appended. -/
def AI.observe (ai : AI) (cell : Cell) (count : Int) : AI :=
  let ai1 := if selfVisited ai.height ai.width cell
    then { ai.mark_safe cell with moves_made := insert cell ai.moves_made }
    else ai
  { ai1 with knowledge := ai1.knowledge ++ [ai.observedSentence cell count] }

/-- Termination measure for the while loop: an empty-celled sentence weighs 1,
a sentence with `k` cells weighs `2k`. -/
def wt (s : Sentence) : Nat :=
  2 * s.cells.card + (if s.cells = ∅ then 1 else 0)

/-- Total weight of a knowledge list: each loop pass strictly decreases it. -/
def measureKn (kn : List Sentence) : Nat :=
  (kn.map wt).sum

/-- `MinesweeperAI.add_knowledge`: record the observation, then run the
inference loop to its fixpoint (the budget `measureKn … + 1` is enough by
`loop_terminates`). -/
def AI.add_knowledge (ai : AI) (cell : Cell) (count : Int) : AI :=
  let ai1 := ai.observe cell count
  AI.loopGo (measureKn ai1.knowledge + 1) ai1

/-- `MinesweeperAI.make_safe_move`: first cell of `self.safes` that is in
neither `self.moves_made` nor `self.mines`, else `None`. -/
def AI.make_safe_move (ai : AI) : Option Cell :=
  (cellList ai.safes).find? fun m => decide (m ∉ ai.moves_made) && decide (m ∉ ai.mines)

/-- The list `possible_moves` built by `MinesweeperAI.make_random_move`:
all `(i, j)` with `i in range(0, height)`, `j in range(0, width)` that are in
neither `moves_made` nor `mines`. -/
def AI.possible_moves (ai : AI) : List Cell :=
  (intRange 0 ai.height).flatMap fun i =>
    (intRange 0 ai.width).filterMap fun j =>
      if ((i, j) : Cell) ∉ ai.moves_made ∧ ((i, j) : Cell) ∉ ai.mines
      then some ((i, j) : Cell) else none

/-- `MinesweeperAI.make_random_move`: a random element of `possible_moves` if
non-empty, else `None`.  `random.randint(0, len-1)` is modelled by the
injected index `r`, reduced mod the length. -/
def AI.make_random_move (ai : AI) (r : Nat) : Option Cell :=
  ai.possible_moves[r % ai.possible_moves.length]?

/-- A sentence is truthful for the ground-truth mine assignment `M`: exactly
`count` of its cells lie in `M`. -/
def truthful (M : Finset Cell) (s : Sentence) : Prop :=
  ((s.cells ∩ M).card : Int) = s.count

/-- Soundness of the whole knowledge base for ground truth `M`: every held
sentence is truthful, no proven-safe cell is a mine, every proven-mine cell
is a mine. -/
def Sound (M : Finset Cell) (ai : AI) : Prop :=
  (∀ s ∈ ai.knowledge, truthful M s) ∧ ai.safes ∩ M = ∅ ∧ ai.mines ⊆ M

/-- The three player-visible fact sets of `b` extend those of `a`. -/
def grows (a b : AI) : Prop :=
  a.moves_made ⊆ b.moves_made ∧ a.safes ⊆ b.safes ∧ a.mines ⊆ b.mines

/-- Every cell of the proven-safe and proven-mine sets is absent from every
sentence of the knowledge list. -/
def Stripped (ai : AI) : Prop :=
  ∀ s ∈ ai.knowledge, ∀ c : Cell, c ∈ ai.safes ∨ c ∈ ai.mines → c ∉ s.cells

/-- The board dimensions of a state (never change after construction). -/
def dims (ai : AI) : Int × Int :=
  (ai.height, ai.width)

/-! ### Basic lemmas about the enumeration and the sentence operations -/

theorem mem_cellList {a : Cell} {s : Finset Cell} : a ∈ cellList s ↔ a ∈ s := by
  rcases s with ⟨m, nd⟩
  induction m using Quot.ind with
  | _ l =>
    show a ∈ List.insertionSort cellLe l ↔ _
    rw [(List.perm_insertionSort cellLe l).mem_iff]
    rfl

theorem toFinset_cellList (s : Finset Cell) : (cellList s).toFinset = s := by
  ext a
  rw [List.mem_toFinset, mem_cellList]

theorem is_subset_iff {s o : Sentence} :
    s.is_subset o = true ↔ s.cells ≠ o.cells ∧ s.cells ⊆ o.cells := by
  unfold Sentence.is_subset
  split <;> simp_all

theorem is_subset_iff_ssubset {s o : Sentence} :
    s.is_subset o = true ↔ s.cells ⊂ o.cells := by
  rw [is_subset_iff, Finset.ssubset_iff_subset_ne, and_comm]

theorem foldl_mark_safe_cells (l : List Cell) (s : Sentence) :
    (l.foldl Sentence.mark_safe s).cells = s.cells \ l.toFinset := by
  induction l generalizing s with
  | nil => simp
  | cons c rest ih =>
    show (rest.foldl Sentence.mark_safe (s.mark_safe c)).cells = _
    rw [ih]
    unfold Sentence.mark_safe
    by_cases h : c ∈ s.cells
    · rw [if_pos h]
      show s.cells.erase c \ rest.toFinset = _
      ext x
      simp only [Finset.mem_sdiff, Finset.mem_erase, List.toFinset_cons, Finset.mem_insert]
      tauto
    · rw [if_neg h, List.toFinset_cons]
      ext x
      simp only [Finset.mem_sdiff, Finset.mem_insert]
      constructor
      · rintro ⟨hx, hr⟩
        exact ⟨hx, by rintro (rfl | hm) <;> [exact h hx; exact hr hm]⟩
      · rintro ⟨hx, hr⟩
        exact ⟨hx, fun hm => hr (Or.inr hm)⟩

theorem foldl_mark_safe_count (l : List Cell) (s : Sentence) :
    (l.foldl Sentence.mark_safe s).count = s.count := by
  induction l generalizing s with
  | nil => rfl
  | cons c rest ih =>
    show (rest.foldl Sentence.mark_safe (s.mark_safe c)).count = _
    rw [ih]
    unfold Sentence.mark_safe
    split <;> rfl

theorem foldl_mark_mine_cells (l : List Cell) (s : Sentence) :
    (l.foldl Sentence.mark_mine s).cells = s.cells \ l.toFinset := by
  induction l generalizing s with
  | nil => simp
  | cons c rest ih =>
    show (rest.foldl Sentence.mark_mine (s.mark_mine c)).cells = _
    rw [ih]
    unfold Sentence.mark_mine
    by_cases h : c ∈ s.cells
    · rw [if_pos h]
      show s.cells.erase c \ rest.toFinset = _
      ext x
      simp only [Finset.mem_sdiff, Finset.mem_erase, List.toFinset_cons, Finset.mem_insert]
      tauto
    · rw [if_neg h, List.toFinset_cons]
      ext x
      simp only [Finset.mem_sdiff, Finset.mem_insert]
      constructor
      · rintro ⟨hx, hr⟩
        exact ⟨hx, by rintro (rfl | hm) <;> [exact h hx; exact hr hm]⟩
      · rintro ⟨hx, hr⟩
        exact ⟨hx, fun hm => hr (Or.inr hm)⟩

theorem inter_insert_card {c : Cell} {t u : Finset Cell} (h : c ∈ t) :
    (t ∩ insert c u).card = (t.erase c ∩ u).card + 1 := by
  have heq : t ∩ insert c u = insert c (t.erase c ∩ u) := by
    ext x
    simp only [Finset.mem_inter, Finset.mem_insert, Finset.mem_erase]
    constructor
    · rintro ⟨hx, rfl | hm⟩
      · exact Or.inl rfl
      · by_cases hxc : x = c
        · exact Or.inl hxc
        · exact Or.inr ⟨⟨hxc, hx⟩, hm⟩
    · rintro (rfl | ⟨⟨hxc, hx⟩, hm⟩)
      · exact ⟨h, Or.inl rfl⟩
      · exact ⟨hx, Or.inr hm⟩
  rw [heq, Finset.card_insert_of_not_mem]
  simp only [Finset.mem_inter, Finset.mem_erase]
  rintro ⟨⟨hc, _⟩, _⟩
  exact hc rfl

theorem foldl_mark_mine_count (l : List Cell) (s : Sentence) :
    (l.foldl Sentence.mark_mine s).count
      = s.count - ((s.cells ∩ l.toFinset).card : Int) := by
  induction l generalizing s with
  | nil => simp
  | cons c rest ih =>
    show (rest.foldl Sentence.mark_mine (s.mark_mine c)).count = _
    rw [ih]
    unfold Sentence.mark_mine
    by_cases h : c ∈ s.cells
    · rw [if_pos h, List.toFinset_cons]
      show s.count - 1 - ((s.cells.erase c ∩ rest.toFinset).card : Int) = _
      rw [inter_insert_card h]
      push_cast
      ring
    · rw [if_neg h, List.toFinset_cons]
      have heq : s.cells ∩ insert c rest.toFinset = s.cells ∩ rest.toFinset := by
        ext x
        simp only [Finset.mem_inter, Finset.mem_insert]
        constructor
        · rintro ⟨hx, rfl | hm⟩
          · exact absurd hx h
          · exact ⟨hx, hm⟩
        · rintro ⟨hx, hm⟩
          exact ⟨hx, Or.inr hm⟩
      rw [heq]

/-! ### Lemmas about `removeFirst` (Python `list.remove`) -/

theorem removeFirst_length_of_mem {v : Sentence} :
    ∀ {l : List Sentence}, v ∈ l → (removeFirst v l).length + 1 = l.length := by
  intro l hv
  induction l with
  | nil => cases hv
  | cons s rest ih =>
    by_cases h : s = v
    · simp [removeFirst, h]
    · rcases List.mem_cons.mp hv with h1 | h1
      · exact absurd h1.symm h
      · simp only [removeFirst, if_neg h, List.length_cons]
        rw [← ih h1]

theorem mem_of_mem_removeFirst {a v : Sentence} :
    ∀ {l : List Sentence}, a ∈ removeFirst v l → a ∈ l := by
  intro l h
  induction l with
  | nil => exact h
  | cons s rest ih =>
    unfold removeFirst at h
    split at h
    · exact List.mem_cons_of_mem s h
    · rcases List.mem_cons.mp h with rfl | h1
      · exact List.mem_cons_self a rest
      · exact List.mem_cons_of_mem s (ih h1)

theorem mem_removeFirst_of_ne {a v : Sentence} :
    ∀ {l : List Sentence}, a ∈ l → a ≠ v → a ∈ removeFirst v l := by
  intro l ha hne
  induction l with
  | nil => exact ha
  | cons s rest ih =>
    unfold removeFirst
    rcases List.mem_cons.mp ha with rfl | h1
    · rw [if_neg hne]
      exact List.mem_cons_self a _
    · split
      · exact h1
      · exact List.mem_cons_of_mem s (ih h1)

theorem not_mem_neighborsOf (height width : Int) (cell : Cell) :
    cell ∉ neighborsOf height width cell :=
  Finset.not_mem_erase cell _

/-! ### The termination measure and how each pass of the loop body acts on it -/

theorem measureKn_append (l1 l2 : List Sentence) :
    measureKn (l1 ++ l2) = measureKn l1 + measureKn l2 := by
  simp [measureKn]

theorem measureKn_removeFirst {v : Sentence} :
    ∀ {l : List Sentence}, v ∈ l → measureKn (removeFirst v l) + wt v = measureKn l := by
  intro l hv
  induction l with
  | nil => cases hv
  | cons s rest ih =>
    by_cases h : s = v
    · subst h
      simp [removeFirst, measureKn, Nat.add_comm]
    · rcases List.mem_cons.mp hv with h1 | h1
      · exact absurd h1.symm h
      · show measureKn (if s = v then rest else s :: removeFirst v rest) + wt v = _
        rw [if_neg h]
        have := ih h1
        simp only [measureKn, List.map_cons, List.sum_cons] at *
        omega

theorem coe_removeFirst {v : Sentence} :
    ∀ {l : List Sentence}, v ∈ l →
      ((removeFirst v l : List Sentence) : Multiset Sentence) = (l : Multiset Sentence).erase v := by
  intro l hv
  induction l with
  | nil => cases hv
  | cons s rest ih =>
    by_cases h : s = v
    · subst h
      rw [show removeFirst s (s :: rest) = rest by simp [removeFirst]]
      rw [show ((s :: rest : List Sentence) : Multiset Sentence) = s ::ₘ (rest : Multiset Sentence) from rfl,
        Multiset.erase_cons_head]
    · rcases List.mem_cons.mp hv with h1 | h1
      · exact absurd h1.symm h
      · rw [show removeFirst v (s :: rest) = s :: removeFirst v rest by simp [removeFirst, h]]
        rw [show ((s :: removeFirst v rest : List Sentence) : Multiset Sentence)
            = s ::ₘ ((removeFirst v rest : List Sentence) : Multiset Sentence) from rfl,
          ih h1,
          show ((s :: rest : List Sentence) : Multiset Sentence) = s ::ₘ (rest : Multiset Sentence) from rfl,
          Multiset.erase_cons_tail_of_mem (by exact_mod_cast h1)]

/-- If `s1.is_subset s2` holds, `s2` has non-empty cells. -/
theorem is_subset_target_nonempty {s1 s2 : Sentence} (h : s1.is_subset s2 = true) :
    s2.cells ≠ ∅ := by
  rcases is_subset_iff.mp h with ⟨hne, hsub⟩
  intro he
  rw [he] at hsub
  exact hne (by rw [Finset.subset_empty.mp hsub, he])

/-- If `s1.is_subset s2` holds, the resolvent has non-empty cells. -/
theorem infer_cells_nonempty {s1 s2 : Sentence} (h : s1.is_subset s2 = true) :
    (s1.infer_new_sentance s2).cells ≠ ∅ := by
  rcases is_subset_iff.mp h with ⟨hne, hsub⟩
  intro he
  exact hne (Finset.Subset.antisymm hsub (Finset.sdiff_eq_empty_iff_subset.mp he))

/-- One firing of the inner subset loop (`append` then `remove`) lowers the
measure by exactly twice the size of `s1`'s cell set. -/
theorem fire_measure {s1 s2 : Sentence} {kn : List Sentence}
    (hmem : s2 ∈ kn) (hsub : s1.is_subset s2 = true) :
    measureKn (removeFirst s2 (kn ++ [s1.infer_new_sentance s2])) + 2 * s1.cells.card
      = measureKn kn := by
  rcases is_subset_iff.mp hsub with ⟨_, hsubset⟩
  have h1 := measureKn_removeFirst (v := s2)
    (l := kn ++ [s1.infer_new_sentance s2]) (List.mem_append_left _ hmem)
  rw [measureKn_append] at h1
  have hwts2 : wt s2 = 2 * s2.cells.card := by
    unfold wt
    rw [if_neg (is_subset_target_nonempty hsub)]
    omega
  have hwtn : wt (s1.infer_new_sentance s2) = 2 * (s2.cells.card - s1.cells.card) := by
    unfold wt
    rw [if_neg (infer_cells_nonempty hsub)]
    show 2 * (s2.cells \ s1.cells).card + 0 = _
    rw [Finset.card_sdiff hsubset]
    omega
  have hle : s1.cells.card ≤ s2.cells.card := Finset.card_le_card hsubset
  have : measureKn [s1.infer_new_sentance s2] = wt (s1.infer_new_sentance s2) := by
    simp [measureKn]
  omega

theorem subsetInner_measure_le (s1 : Sentence) :
    ∀ (cp kn : List Sentence), (cp : Multiset Sentence) ≤ (kn : Multiset Sentence) →
      measureKn (subsetInner s1 cp kn) ≤ measureKn kn := by
  intro cp
  induction cp with
  | nil => intro kn _; exact Nat.le_refl _
  | cons s2 rest ih =>
    intro kn avail
    show measureKn (if s1.is_subset s2 then _ else _) ≤ _
    have hcons : ((s2 :: rest : List Sentence) : Multiset Sentence)
        = s2 ::ₘ (rest : Multiset Sentence) := rfl
    by_cases hf : s1.is_subset s2
    · rw [if_pos hf]
      have hmem : s2 ∈ kn := by
        have : s2 ∈ (kn : Multiset Sentence) :=
          Multiset.mem_of_le avail (by rw [hcons]; exact Multiset.mem_cons_self s2 _)
        exact_mod_cast this
      have hrest : (rest : Multiset Sentence)
          ≤ ((removeFirst s2 (kn ++ [s1.infer_new_sentance s2]) : List Sentence) : Multiset Sentence) := by
        rw [coe_removeFirst (List.mem_append_left _ hmem)]
        calc (rest : Multiset Sentence)
            = (s2 ::ₘ (rest : Multiset Sentence)).erase s2 := (Multiset.erase_cons_head s2 _).symm
          _ ≤ ((kn : List Sentence) : Multiset Sentence).erase s2 := by
              exact Multiset.erase_le_erase s2 (hcons ▸ avail)
          _ ≤ (((kn ++ [s1.infer_new_sentance s2] : List Sentence)) : Multiset Sentence).erase s2 := by
              refine Multiset.erase_le_erase s2 ?_
              show (kn : Multiset Sentence)
                ≤ (kn : Multiset Sentence) + ([s1.infer_new_sentance s2] : Multiset Sentence)
              exact Multiset.le_add_right _ _
      have h1 := ih _ hrest
      have h2 := fire_measure hmem hf
      omega
    · rw [if_neg hf]
      exact ih kn (le_trans (by rw [hcons]; exact Multiset.le_cons_self _ _) avail)

theorem subsetInner_measure_lt (s1 : Sentence) (h1 : s1.cells ≠ ∅) :
    ∀ (cp kn : List Sentence), (cp : Multiset Sentence) ≤ (kn : Multiset Sentence) →
      (∃ s2 ∈ cp, s1.is_subset s2 = true) →
      measureKn (subsetInner s1 cp kn) < measureKn kn := by
  intro cp
  induction cp with
  | nil => rintro kn _ ⟨s2, h, _⟩; cases h
  | cons s2 rest ih =>
    intro kn avail hex
    show measureKn (if s1.is_subset s2 then _ else _) < _
    have hcons : ((s2 :: rest : List Sentence) : Multiset Sentence)
        = s2 ::ₘ (rest : Multiset Sentence) := rfl
    by_cases hf : s1.is_subset s2
    · rw [if_pos hf]
      have hmem : s2 ∈ kn := by
        have : s2 ∈ (kn : Multiset Sentence) :=
          Multiset.mem_of_le avail (by rw [hcons]; exact Multiset.mem_cons_self s2 _)
        exact_mod_cast this
      have hrest : (rest : Multiset Sentence)
          ≤ ((removeFirst s2 (kn ++ [s1.infer_new_sentance s2]) : List Sentence) : Multiset Sentence) := by
        rw [coe_removeFirst (List.mem_append_left _ hmem)]
        calc (rest : Multiset Sentence)
            = (s2 ::ₘ (rest : Multiset Sentence)).erase s2 := (Multiset.erase_cons_head s2 _).symm
          _ ≤ ((kn : List Sentence) : Multiset Sentence).erase s2 := by
              exact Multiset.erase_le_erase s2 (hcons ▸ avail)
          _ ≤ (((kn ++ [s1.infer_new_sentance s2] : List Sentence)) : Multiset Sentence).erase s2 := by
              refine Multiset.erase_le_erase s2 ?_
              show (kn : Multiset Sentence)
                ≤ (kn : Multiset Sentence) + ([s1.infer_new_sentance s2] : Multiset Sentence)
              exact Multiset.le_add_right _ _
      have hA := subsetInner_measure_le s1 rest _ hrest
      have h2 := fire_measure hmem hf
      have hc : 1 ≤ s1.cells.card :=
        Finset.card_pos.mpr (Finset.nonempty_iff_ne_empty.mpr h1)
      omega
    · rw [if_neg hf]
      rcases hex with ⟨t, ht, htsub⟩
      rcases List.mem_cons.mp ht with rfl | ht1
      · exact absurd htsub hf
      · exact ih kn (le_trans (by rw [hcons]; exact Multiset.le_cons_self _ _) avail)
          ⟨t, ht1, htsub⟩

theorem subsetInner_id (s1 : Sentence) :
    ∀ (cp kn : List Sentence), (∀ s2 ∈ cp, ¬s1.is_subset s2 = true) →
      subsetInner s1 cp kn = kn := by
  intro cp
  induction cp with
  | nil => intro kn _; rfl
  | cons s2 rest ih =>
    intro kn h
    show (if s1.is_subset s2 then _ else _) = _
    rw [if_neg (h s2 (List.mem_cons_self _ _))]
    exact ih kn fun t ht => h t (List.mem_cons_of_mem _ ht)

theorem subsetInner_empty_mem (s1 : Sentence) {e : Sentence} (he : e.cells = ∅) :
    ∀ (cp kn : List Sentence), e ∈ kn → e ∈ subsetInner s1 cp kn := by
  intro cp
  induction cp with
  | nil => intro kn h; exact h
  | cons s2 rest ih =>
    intro kn h
    show e ∈ (if s1.is_subset s2 then _ else _)
    by_cases hf : s1.is_subset s2
    · rw [if_pos hf]
      refine ih _ (mem_removeFirst_of_ne (List.mem_append_left _ h) ?_)
      intro hev
      exact is_subset_target_nonempty hf (hev ▸ he)
    · rw [if_neg hf]
      exact ih kn h

/-- Every sentence in the result of the inner subset loop satisfies `Q`,
provided the current knowledge and the copy satisfy `Q` and `Q` is closed
under resolving `s1` against a `Q`-sentence. -/
theorem subsetInner_forall {Q : Sentence → Prop} (s1 : Sentence) :
    ∀ (cp kn : List Sentence), (∀ s ∈ kn, Q s) → (∀ s ∈ cp, Q s) →
      (∀ s2, Q s2 → s1.is_subset s2 = true → Q (s1.infer_new_sentance s2)) →
      ∀ s ∈ subsetInner s1 cp kn, Q s := by
  intro cp
  induction cp with
  | nil => intro kn hkn _ _ s hs; exact hkn s hs
  | cons s2 rest ih =>
    intro kn hkn hcp hrule s hs
    rw [show subsetInner s1 (s2 :: rest) kn
        = if s1.is_subset s2 then
            subsetInner s1 rest (removeFirst s2 (kn ++ [s1.infer_new_sentance s2]))
          else subsetInner s1 rest kn from rfl] at hs
    by_cases hf : s1.is_subset s2
    · rw [if_pos hf] at hs
      refine ih _ ?_ (fun t ht => hcp t (List.mem_cons_of_mem _ ht)) hrule s hs
      intro t ht
      rcases List.mem_append.mp (mem_of_mem_removeFirst ht) with h1 | h1
      · exact hkn t h1
      · rw [List.mem_singleton.mp h1]
        exact hrule s2 (hcp s2 (List.mem_cons_self _ _)) hf
    · rw [if_neg hf] at hs
      exact ih kn hkn (fun t ht => hcp t (List.mem_cons_of_mem _ ht)) hrule s hs

theorem subsetOuter_measure_le :
    ∀ (l kn : List Sentence), measureKn (subsetOuter l kn) ≤ measureKn kn := by
  intro l
  induction l with
  | nil => intro kn; exact Nat.le_refl _
  | cons s1 rest ih =>
    intro kn
    show measureKn (subsetOuter rest (subsetInner s1 kn kn)) ≤ _
    exact le_trans (ih _) (subsetInner_measure_le s1 kn kn (le_refl _))

theorem subsetOuter_measure_lt :
    ∀ (l kn : List Sentence), (∀ s ∈ l, s.cells ≠ ∅) →
      (∃ t ∈ l, ∃ s2 ∈ kn, t.is_subset s2 = true) →
      measureKn (subsetOuter l kn) < measureKn kn := by
  intro l
  induction l with
  | nil => rintro kn _ ⟨t, h, _⟩; cases h
  | cons s1 rest ih =>
    intro kn hne hex
    show measureKn (subsetOuter rest (subsetInner s1 kn kn)) < _
    by_cases hf : ∃ s2 ∈ kn, s1.is_subset s2 = true
    · have hlt := subsetInner_measure_lt s1 (hne s1 (List.mem_cons_self _ _)) kn kn (le_refl _) hf
      exact Nat.lt_of_le_of_lt (subsetOuter_measure_le rest _) hlt
    · rw [subsetInner_id s1 kn kn (fun s2 hs2 hsub => hf ⟨s2, hs2, hsub⟩)]
      rcases hex with ⟨t, ht, s2, hs2, hsub⟩
      rcases List.mem_cons.mp ht with rfl | ht1
      · exact absurd ⟨s2, hs2, hsub⟩ hf
      · exact ih kn (fun s hs => hne s (List.mem_cons_of_mem _ hs)) ⟨t, ht1, s2, hs2, hsub⟩

theorem subsetOuter_id :
    ∀ (l kn : List Sentence), (∀ t ∈ l, ∀ s2 ∈ kn, ¬t.is_subset s2 = true) →
      subsetOuter l kn = kn := by
  intro l
  induction l with
  | nil => intro kn _; rfl
  | cons s1 rest ih =>
    intro kn h
    show subsetOuter rest (subsetInner s1 kn kn) = kn
    rw [subsetInner_id s1 kn kn (h s1 (List.mem_cons_self _ _))]
    exact ih kn fun t ht => h t (List.mem_cons_of_mem _ ht)

theorem subsetOuter_empty_mem {e : Sentence} (he : e.cells = ∅) :
    ∀ (l kn : List Sentence), e ∈ kn → e ∈ subsetOuter l kn := by
  intro l
  induction l with
  | nil => intro kn h; exact h
  | cons s1 rest ih =>
    intro kn h
    exact ih _ (subsetInner_empty_mem s1 he kn kn h)

theorem mark_safe_cells_eq (s : Sentence) (c : Cell) :
    (s.mark_safe c).cells = if c ∈ s.cells then s.cells.erase c else s.cells := by
  unfold Sentence.mark_safe
  split <;> rfl

theorem mark_mine_cells_eq (s : Sentence) (c : Cell) :
    (s.mark_mine c).cells = if c ∈ s.cells then s.cells.erase c else s.cells := by
  unfold Sentence.mark_mine
  split <;> rfl

/-- Removing one cell (or nothing) from a sentence never raises its weight,
and strictly lowers it when the cell was present. -/
theorem wt_le_of_cells {s t : Sentence} (c : Cell)
    (h : t.cells = if c ∈ s.cells then s.cells.erase c else s.cells) :
    wt t ≤ wt s ∧ (c ∈ s.cells → wt t < wt s) := by
  unfold wt
  by_cases hc : c ∈ s.cells
  · rw [if_pos hc] at h
    have hk : 1 ≤ s.cells.card := Finset.card_pos.mpr ⟨c, hc⟩
    have hcard : t.cells.card = s.cells.card - 1 := by
      rw [h]; exact Finset.card_erase_of_mem hc
    have hne : ¬s.cells = ∅ := fun he => Finset.not_mem_empty c (he ▸ hc)
    rw [if_neg hne]
    by_cases h2 : t.cells = ∅
    · rw [if_pos h2]; constructor <;> [omega; exact fun _ => by omega]
    · rw [if_neg h2]; constructor <;> [omega; exact fun _ => by omega]
  · rw [if_neg hc] at h
    rw [h]
    exact ⟨le_refl _, fun hcc => absurd hcc hc⟩

theorem measureKn_cons (s : Sentence) (l : List Sentence) :
    measureKn (s :: l) = wt s + measureKn l := by
  simp [measureKn]

theorem measureKn_map_le {f : Sentence → Sentence} (hf : ∀ s, wt (f s) ≤ wt s) :
    ∀ kn : List Sentence, measureKn (kn.map f) ≤ measureKn kn := by
  intro kn
  induction kn with
  | nil => exact le_refl _
  | cons a l ih =>
    rw [List.map_cons, measureKn_cons, measureKn_cons]
    exact Nat.add_le_add (hf a) ih

theorem measureKn_map_lt {f : Sentence → Sentence} (hf : ∀ s, wt (f s) ≤ wt s) :
    ∀ {kn : List Sentence} {s0 : Sentence}, s0 ∈ kn → wt (f s0) < wt s0 →
      measureKn (kn.map f) < measureKn kn := by
  intro kn
  induction kn with
  | nil => intro s0 h; cases h
  | cons a l ih =>
    intro s0 hmem hs
    rw [List.map_cons, measureKn_cons, measureKn_cons]
    rcases List.mem_cons.mp hmem with rfl | h1
    · have := measureKn_map_le hf l
      omega
    · have := ih h1 hs
      have := hf a
      omega

theorem mark_safe_ai_measure_le (ai : AI) (c : Cell) :
    measureKn (ai.mark_safe c).knowledge ≤ measureKn ai.knowledge :=
  measureKn_map_le (fun s => (wt_le_of_cells c (mark_safe_cells_eq s c)).1) _

theorem mark_mine_ai_measure_le (ai : AI) (c : Cell) :
    measureKn (ai.mark_mine c).knowledge ≤ measureKn ai.knowledge :=
  measureKn_map_le (fun s => (wt_le_of_cells c (mark_mine_cells_eq s c)).1) _

theorem mark_safe_ai_measure_lt {ai : AI} {c : Cell} {s0 : Sentence}
    (hmem : s0 ∈ ai.knowledge) (hc : c ∈ s0.cells) :
    measureKn (ai.mark_safe c).knowledge < measureKn ai.knowledge :=
  measureKn_map_lt (fun s => (wt_le_of_cells c (mark_safe_cells_eq s c)).1) hmem
    ((wt_le_of_cells c (mark_safe_cells_eq s0 c)).2 hc)

theorem mark_mine_ai_measure_lt {ai : AI} {c : Cell} {s0 : Sentence}
    (hmem : s0 ∈ ai.knowledge) (hc : c ∈ s0.cells) :
    measureKn (ai.mark_mine c).knowledge < measureKn ai.knowledge :=
  measureKn_map_lt (fun s => (wt_le_of_cells c (mark_mine_cells_eq s c)).1) hmem
    ((wt_le_of_cells c (mark_mine_cells_eq s0 c)).2 hc)

theorem foldl_mark_safe_ai_measure_le (l : List Cell) :
    ∀ ai : AI, measureKn ((l.foldl AI.mark_safe ai).knowledge) ≤ measureKn ai.knowledge := by
  induction l with
  | nil => intro ai; exact le_refl _
  | cons c rest ih =>
    intro ai
    exact le_trans (ih (ai.mark_safe c)) (mark_safe_ai_measure_le ai c)

theorem foldl_mark_mine_ai_measure_le (l : List Cell) :
    ∀ ai : AI, measureKn ((l.foldl AI.mark_mine ai).knowledge) ≤ measureKn ai.knowledge := by
  induction l with
  | nil => intro ai; exact le_refl _
  | cons c rest ih =>
    intro ai
    exact le_trans (ih (ai.mark_mine c)) (mark_mine_ai_measure_le ai c)

theorem markStepMines_measure_le (ai : AI) (i : Nat) :
    measureKn ((markStepMines ai i).knowledge) ≤ measureKn ai.knowledge := by
  unfold markStepMines
  cases ai.knowledge[i]? with
  | none => exact le_refl _
  | some t => exact foldl_mark_mine_ai_measure_le _ _

theorem markStep_measure_le (ai : AI) (i : Nat) :
    measureKn ((markStep ai i).knowledge) ≤ measureKn ai.knowledge := by
  unfold markStep
  cases ai.knowledge[i]? with
  | none => exact le_refl _
  | some s =>
    exact le_trans (markStepMines_measure_le _ _) (foldl_mark_safe_ai_measure_le _ _)

theorem cellList_empty : cellList ∅ = [] := rfl

theorem cellList_ne_nil {s : Finset Cell} (h : s ≠ ∅) : cellList s ≠ [] := by
  rcases Finset.nonempty_iff_ne_empty.mpr h with ⟨x, hx⟩
  intro hnil
  have hmem := mem_cellList.mpr hx
  rw [hnil] at hmem
  cases hmem

theorem known_safes_ne_empty {s : Sentence} (h : s.known_safes ≠ ∅) :
    s.known_safes = s.cells ∧ s.cells ≠ ∅ := by
  unfold Sentence.known_safes at h ⊢
  by_cases hc : s.count = 0
  · rw [if_pos hc] at h ⊢; exact ⟨rfl, h⟩
  · rw [if_neg hc] at h; exact absurd rfl h

theorem known_mines_ne_empty {s : Sentence} (h : s.known_mines ≠ ∅) :
    s.known_mines = s.cells ∧ s.cells ≠ ∅ := by
  unfold Sentence.known_mines at h ⊢
  by_cases hc : (s.cells.card : Int) = s.count
  · rw [if_pos hc] at h ⊢; exact ⟨rfl, h⟩
  · rw [if_neg hc] at h; exact absurd rfl h

/-- A marking step at an index holding a sentence with extractable facts
strictly lowers the measure: the first `mark_safe`/`mark_mine` call of that
step strips a cell that is still present in that very sentence. -/
theorem markStep_measure_lt {ai : AI} {i : Nat} {s : Sentence}
    (h : ai.knowledge[i]? = some s)
    (helig : s.known_safes ≠ ∅ ∨ s.known_mines ≠ ∅) :
    measureKn ((markStep ai i).knowledge) < measureKn ai.knowledge := by
  unfold markStep
  rw [h]
  show measureKn ((markStepMines ((cellList s.known_safes).foldl AI.mark_safe ai) i)).knowledge
      < measureKn ai.knowledge
  by_cases hsafe : s.known_safes ≠ ∅
  · obtain ⟨heq, hcne⟩ := known_safes_ne_empty hsafe
    rw [heq]
    cases hl : cellList s.cells with
    | nil => exact absurd hl (cellList_ne_nil hcne)
    | cons c rest =>
      have hc : c ∈ s.cells := mem_cellList.mp (hl ▸ List.mem_cons_self c rest)
      have hstrict : measureKn (ai.mark_safe c).knowledge < measureKn ai.knowledge :=
        mark_safe_ai_measure_lt (List.getElem?_mem h) hc
      calc measureKn ((markStepMines ((c :: rest).foldl AI.mark_safe ai) i).knowledge)
          ≤ measureKn (((c :: rest).foldl AI.mark_safe ai).knowledge) :=
            markStepMines_measure_le _ _
        _ = measureKn ((rest.foldl AI.mark_safe (ai.mark_safe c)).knowledge) := rfl
        _ ≤ measureKn (ai.mark_safe c).knowledge := foldl_mark_safe_ai_measure_le _ _
        _ < measureKn ai.knowledge := hstrict
  · push_neg at hsafe
    have hmine : s.known_mines ≠ ∅ := by
      rcases helig with h1 | h1
      · exact absurd hsafe h1
      · exact h1
    obtain ⟨heq, hcne⟩ := known_mines_ne_empty hmine
    rw [hsafe, cellList_empty]
    show measureKn ((markStepMines ai i).knowledge) < measureKn ai.knowledge
    unfold markStepMines
    rw [h]
    show measureKn (((cellList s.known_mines).foldl AI.mark_mine ai).knowledge)
        < measureKn ai.knowledge
    rw [heq]
    cases hl : cellList s.cells with
    | nil => exact absurd hl (cellList_ne_nil hcne)
    | cons c rest =>
      have hc : c ∈ s.cells := mem_cellList.mp (hl ▸ List.mem_cons_self c rest)
      have hstrict : measureKn (ai.mark_mine c).knowledge < measureKn ai.knowledge :=
        mark_mine_ai_measure_lt (List.getElem?_mem h) hc
      calc measureKn (((c :: rest).foldl AI.mark_mine ai).knowledge)
          = measureKn ((rest.foldl AI.mark_mine (ai.mark_mine c)).knowledge) := rfl
        _ ≤ measureKn (ai.mark_mine c).knowledge := foldl_mark_mine_ai_measure_le _ _
        _ < measureKn ai.knowledge := hstrict

theorem markStep_noop {ai : AI} {i : Nat}
    (h : ∀ s, ai.knowledge[i]? = some s → s.known_safes = ∅ ∧ s.known_mines = ∅) :
    markStep ai i = ai := by
  unfold markStep
  cases hk : ai.knowledge[i]? with
  | none => rfl
  | some s =>
    obtain ⟨h1, h2⟩ := h s hk
    show markStepMines ((cellList s.known_safes).foldl AI.mark_safe ai) i = ai
    rw [h1, cellList_empty]
    show markStepMines ai i = ai
    unfold markStepMines
    rw [hk]
    show (cellList s.known_mines).foldl AI.mark_mine ai = ai
    rw [h2, cellList_empty]
    rfl

theorem foldl_markStep_measure_le :
    ∀ (idxs : List Nat) (ai : AI),
      measureKn ((idxs.foldl markStep ai).knowledge) ≤ measureKn ai.knowledge := by
  intro idxs
  induction idxs with
  | nil => intro ai; exact le_refl _
  | cons i rest ih =>
    intro ai
    exact le_trans (ih (markStep ai i)) (markStep_measure_le ai i)

theorem foldl_markStep_measure_lt :
    ∀ (idxs : List Nat) (ai : AI),
      (∃ i ∈ idxs, ∃ s, ai.knowledge[i]? = some s ∧
        (s.known_safes ≠ ∅ ∨ s.known_mines ≠ ∅)) →
      measureKn ((idxs.foldl markStep ai).knowledge) < measureKn ai.knowledge := by
  intro idxs
  induction idxs with
  | nil => rintro ai ⟨i, h, _⟩; cases h
  | cons i rest ih =>
    rintro ai hex
    by_cases heli : ∃ s, ai.knowledge[i]? = some s ∧ (s.known_safes ≠ ∅ ∨ s.known_mines ≠ ∅)
    · rcases heli with ⟨s, hks, hel⟩
      exact Nat.lt_of_le_of_lt (foldl_markStep_measure_le rest (markStep ai i))
        (markStep_measure_lt hks hel)
    · have hid : markStep ai i = ai := by
        refine markStep_noop fun s hks => ?_
        by_contra hcon
        rw [Decidable.not_and_iff_or_not] at hcon
        exact heli ⟨s, hks, by
          rcases hcon with h1 | h1
          · exact Or.inl h1
          · exact Or.inr h1⟩
      show measureKn ((rest.foldl markStep (markStep ai i)).knowledge) < _
      rw [hid]
      rcases hex with ⟨j, hj, s, hks, hel⟩
      rcases List.mem_cons.mp hj with rfl | hj1
      · exact absurd ⟨s, hks, hel⟩ heli
      · exact ih ai ⟨j, hj1, s, hks, hel⟩

/-! ### Empty sentences survive the subset and marking passes -/

theorem mark_safe_ai_empty_mem {e : Sentence} (he : e.cells = ∅) {ai : AI} (c : Cell)
    (h : e ∈ ai.knowledge) : e ∈ (ai.mark_safe c).knowledge := by
  refine List.mem_map.mpr ⟨e, h, ?_⟩
  unfold Sentence.mark_safe
  rw [if_neg (by rw [he]; exact Finset.not_mem_empty c)]

theorem mark_mine_ai_empty_mem {e : Sentence} (he : e.cells = ∅) {ai : AI} (c : Cell)
    (h : e ∈ ai.knowledge) : e ∈ (ai.mark_mine c).knowledge := by
  refine List.mem_map.mpr ⟨e, h, ?_⟩
  unfold Sentence.mark_mine
  rw [if_neg (by rw [he]; exact Finset.not_mem_empty c)]

theorem foldl_mark_safe_ai_empty_mem {e : Sentence} (he : e.cells = ∅) :
    ∀ (l : List Cell) (ai : AI), e ∈ ai.knowledge → e ∈ ((l.foldl AI.mark_safe ai)).knowledge := by
  intro l
  induction l with
  | nil => intro ai h; exact h
  | cons c rest ih =>
    intro ai h
    exact ih (ai.mark_safe c) (mark_safe_ai_empty_mem he c h)

theorem foldl_mark_mine_ai_empty_mem {e : Sentence} (he : e.cells = ∅) :
    ∀ (l : List Cell) (ai : AI), e ∈ ai.knowledge → e ∈ ((l.foldl AI.mark_mine ai)).knowledge := by
  intro l
  induction l with
  | nil => intro ai h; exact h
  | cons c rest ih =>
    intro ai h
    exact ih (ai.mark_mine c) (mark_mine_ai_empty_mem he c h)

theorem markStep_empty_mem {e : Sentence} (he : e.cells = ∅) (ai : AI) (i : Nat)
    (h : e ∈ ai.knowledge) : e ∈ (markStep ai i).knowledge := by
  unfold markStep
  cases ai.knowledge[i]? with
  | none => exact h
  | some s =>
    show e ∈ (markStepMines ((cellList s.known_safes).foldl AI.mark_safe ai) i).knowledge
    unfold markStepMines
    cases (((cellList s.known_safes).foldl AI.mark_safe ai)).knowledge[i]? with
    | none => exact foldl_mark_safe_ai_empty_mem he _ ai h
    | some t =>
      show e ∈ ((cellList t.known_mines).foldl AI.mark_mine
        ((cellList s.known_safes).foldl AI.mark_safe ai)).knowledge
      exact foldl_mark_mine_ai_empty_mem he _ _ (foldl_mark_safe_ai_empty_mem he _ ai h)

theorem foldl_markStep_empty_mem {e : Sentence} (he : e.cells = ∅) :
    ∀ (idxs : List Nat) (ai : AI), e ∈ ai.knowledge → e ∈ ((idxs.foldl markStep ai)).knowledge := by
  intro idxs
  induction idxs with
  | nil => intro ai h; exact h
  | cons i rest ih =>
    intro ai h
    exact ih (markStep ai i) (markStep_empty_mem he ai i h)

/-! ### The removal pass -/

theorem removalGo_measure_le :
    ∀ (fuel : Nat) (kn : List Sentence) (i : Nat),
      measureKn (removalGo fuel kn i) ≤ measureKn kn := by
  intro fuel
  induction fuel with
  | zero => intro kn i; exact le_refl _
  | succ n ih =>
    intro kn i
    unfold removalGo
    cases hk : kn[i]? with
    | none => exact le_refl _
    | some s =>
      show measureKn (if s.cells = ∅ then removalGo n (removeFirst s kn) (i + 1)
        else removalGo n kn (i + 1)) ≤ measureKn kn
      by_cases hce : s.cells = ∅
      · rw [if_pos hce]
        have h1 := ih (removeFirst s kn) (i + 1)
        have h2 := measureKn_removeFirst (List.getElem?_mem hk)
        omega
      · rw [if_neg hce]
        exact ih kn (i + 1)

theorem removalGo_measure_lt :
    ∀ (fuel : Nat) (kn : List Sentence) (i : Nat),
      (∃ j, i ≤ j ∧ ∃ s, kn[j]? = some s ∧ s.cells = ∅) → kn.length ≤ fuel + i →
      measureKn (removalGo fuel kn i) < measureKn kn := by
  intro fuel
  induction fuel with
  | zero =>
    rintro kn i ⟨j, hij, s, hjs, _⟩ hlen
    have h1 : j < kn.length := (List.getElem?_eq_some.mp hjs).1
    omega
  | succ n ih =>
    rintro kn i hex hlen
    unfold removalGo
    cases hk : kn[i]? with
    | none =>
      rcases hex with ⟨j, hij, s, hjs, _⟩
      have h1 : j < kn.length := (List.getElem?_eq_some.mp hjs).1
      have h2 : kn.length ≤ i := by
        rcases Nat.lt_or_ge i kn.length with hlt | hge
        · rw [List.getElem?_eq_getElem hlt] at hk; cases hk
        · exact hge
      omega
    | some s =>
      show measureKn (if s.cells = ∅ then removalGo n (removeFirst s kn) (i + 1)
        else removalGo n kn (i + 1)) < measureKn kn
      by_cases hce : s.cells = ∅
      · rw [if_pos hce]
        have hmem : s ∈ kn := List.getElem?_mem hk
        have h1 := measureKn_removeFirst hmem
        have hwt : wt s = 1 := by
          unfold wt
          rw [hce]
          simp
        have h2 := removalGo_measure_le n (removeFirst s kn) (i + 1)
        omega
      · rw [if_neg hce]
        refine ih kn (i + 1) ?_ (by omega)
        rcases hex with ⟨j, hij, t, hjt, hte⟩
        have hne : i ≠ j := by
          rintro rfl
          rw [hk] at hjt
          injection hjt with h2
          exact hce (h2 ▸ hte)
        exact ⟨j, by omega, t, hjt, hte⟩

theorem removalGo_mem :
    ∀ (fuel : Nat) (kn : List Sentence) (i : Nat) {s : Sentence},
      s ∈ removalGo fuel kn i → s ∈ kn := by
  intro fuel
  induction fuel with
  | zero => intro kn i s h; exact h
  | succ n ih =>
    intro kn i s h
    unfold removalGo at h
    cases hk : kn[i]? with
    | none => rw [hk] at h; exact h
    | some t =>
      rw [hk] at h
      have h2 : s ∈ (if t.cells = ∅ then removalGo n (removeFirst t kn) (i + 1)
          else removalGo n kn (i + 1)) := h
      by_cases hce : t.cells = ∅
      · rw [if_pos hce] at h2
        exact mem_of_mem_removeFirst (ih _ _ h2)
      · rw [if_neg hce] at h2
        exact ih _ _ h2

/-! ### The loop condition and one full pass of the loop body -/

theorem loopCond_true_iff {ai : AI} : ai.loopCond = true ↔
    inference_1 ai.knowledge ≠ [] ∨ inference_2 ai.knowledge ≠ [] ∨
      inference_3 ai.knowledge ≠ [] := by
  unfold AI.loopCond
  simp only [Bool.or_eq_true, Bool.not_eq_true', List.isEmpty_eq_false, ne_eq]
  tauto

theorem inference_1_ne_nil {kn : List Sentence} :
    inference_1 kn ≠ [] ↔ ∃ t ∈ kn, ∃ s2 ∈ kn, t.is_subset s2 = true := by
  constructor
  · intro h
    rcases List.exists_mem_of_ne_nil _ h with ⟨x, hx⟩
    simp only [inference_1, List.mem_flatMap, List.mem_map, List.mem_filter] at hx
    rcases hx with ⟨t, ht, s2, ⟨hs2, hsub⟩, _⟩
    exact ⟨t, ht, s2, hs2, hsub⟩
  · rintro ⟨t, ht, s2, hs2, hsub⟩ hnil
    have hx : t.infer_new_sentance s2 ∈ inference_1 kn := by
      simp only [inference_1, List.mem_flatMap, List.mem_map, List.mem_filter]
      exact ⟨t, ht, s2, ⟨hs2, hsub⟩, rfl⟩
    rw [hnil] at hx
    cases hx

theorem inference_2_ne_nil {kn : List Sentence} :
    inference_2 kn ≠ [] ↔ ∃ s ∈ kn, s.known_safes ≠ ∅ := by
  constructor
  · intro h
    rcases List.exists_mem_of_ne_nil _ h with ⟨x, hx⟩
    simp only [inference_2, List.mem_filter, decide_eq_true_eq] at hx
    exact ⟨x, hx.1, hx.2⟩
  · rintro ⟨s, hs, h⟩ hnil
    have hx : s ∈ inference_2 kn := by
      simp only [inference_2, List.mem_filter, decide_eq_true_eq]
      exact ⟨hs, h⟩
    rw [hnil] at hx
    cases hx

theorem inference_3_ne_nil {kn : List Sentence} :
    inference_3 kn ≠ [] ↔ ∃ s ∈ kn, s.known_mines ≠ ∅ := by
  constructor
  · intro h
    rcases List.exists_mem_of_ne_nil _ h with ⟨x, hx⟩
    simp only [inference_3, List.mem_filter, decide_eq_true_eq] at hx
    exact ⟨x, hx.1, hx.2⟩
  · rintro ⟨s, hs, h⟩ hnil
    have hx : s ∈ inference_3 kn := by
      simp only [inference_3, List.mem_filter, decide_eq_true_eq]
      exact ⟨hs, h⟩
    rw [hnil] at hx
    cases hx

theorem markPass_measure_le (ai : AI) :
    measureKn (markPass ai).knowledge ≤ measureKn ai.knowledge :=
  foldl_markStep_measure_le _ _

theorem markPass_measure_lt {ai : AI}
    (hex : ∃ s ∈ ai.knowledge, s.known_safes ≠ ∅ ∨ s.known_mines ≠ ∅) :
    measureKn (markPass ai).knowledge < measureKn ai.knowledge := by
  rcases hex with ⟨s, hs, hel⟩
  rcases List.getElem_of_mem hs with ⟨n, hn, hns⟩
  exact foldl_markStep_measure_lt _ _
    ⟨n, List.mem_range.mpr hn, s, by rw [List.getElem?_eq_getElem hn, hns], hel⟩

theorem markPass_empty_mem {e : Sentence} (he : e.cells = ∅) (ai : AI)
    (h : e ∈ ai.knowledge) : e ∈ (markPass ai).knowledge :=
  foldl_markStep_empty_mem he _ _ h

theorem removalLoop_measure_le (kn : List Sentence) :
    measureKn (removalLoop kn 0) ≤ measureKn kn :=
  removalGo_measure_le _ _ _

theorem removalLoop_measure_lt {kn : List Sentence} (hex : ∃ e ∈ kn, e.cells = ∅) :
    measureKn (removalLoop kn 0) < measureKn kn := by
  rcases hex with ⟨e, he_mem, he⟩
  rcases List.getElem_of_mem he_mem with ⟨j, hj, hje⟩
  exact removalGo_measure_lt _ _ 0
    ⟨j, Nat.zero_le j, e, by rw [List.getElem?_eq_getElem hj, hje], he⟩ (by omega)

/-- Each pass of the while-loop body taken with the condition true strictly
decreases the measure: either the subset pass resolves a pair whose subset
side is non-empty, or an empty sentence survives to the removal pass and is
dropped there, or the marking pass strips a cell from a sentence. -/
theorem loopBody_measure_lt {ai : AI} (h : ai.loopCond = true) :
    measureKn ai.loopBody.knowledge < measureKn ai.knowledge := by
  have hcond := loopCond_true_iff.mp h
  have hbody : ai.loopBody.knowledge
      = removalLoop (markPass { ai with knowledge := subsetPass ai.knowledge }).knowledge 0 := rfl
  rw [hbody]
  by_cases hE : ∃ e ∈ ai.knowledge, e.cells = ∅
  · rcases hE with ⟨e, he_mem, he⟩
    have h1 : e ∈ (markPass { ai with knowledge := subsetPass ai.knowledge }).knowledge :=
      markPass_empty_mem he _ (subsetOuter_empty_mem he _ _ he_mem)
    calc measureKn (removalLoop (markPass { ai with knowledge := subsetPass ai.knowledge }).knowledge 0)
        < measureKn (markPass { ai with knowledge := subsetPass ai.knowledge }).knowledge :=
          removalLoop_measure_lt ⟨e, h1, he⟩
      _ ≤ measureKn (subsetPass ai.knowledge) := markPass_measure_le _
      _ ≤ measureKn ai.knowledge := subsetOuter_measure_le _ _
  · push_neg at hE
    by_cases hI1 : inference_1 ai.knowledge = []
    · have hnopair : ∀ t ∈ ai.knowledge, ∀ s2 ∈ ai.knowledge, ¬t.is_subset s2 = true :=
        fun t ht s2 hs2 hsub => (inference_1_ne_nil.mpr ⟨t, ht, s2, hs2, hsub⟩) hI1
      have hid : subsetPass ai.knowledge = ai.knowledge := subsetOuter_id _ _ hnopair
      have helig : ∃ s ∈ ai.knowledge, s.known_safes ≠ ∅ ∨ s.known_mines ≠ ∅ := by
        rcases hcond with h1 | h2 | h3
        · exact absurd hI1 h1
        · rcases inference_2_ne_nil.mp h2 with ⟨s, hs, hne⟩
          exact ⟨s, hs, Or.inl hne⟩
        · rcases inference_3_ne_nil.mp h3 with ⟨s, hs, hne⟩
          exact ⟨s, hs, Or.inr hne⟩
      rw [hid]
      calc measureKn (removalLoop (markPass { ai with knowledge := ai.knowledge }).knowledge 0)
          ≤ measureKn (markPass { ai with knowledge := ai.knowledge }).knowledge :=
            removalLoop_measure_le _
        _ < measureKn ai.knowledge := markPass_measure_lt helig
    · have hs : measureKn (subsetPass ai.knowledge) < measureKn ai.knowledge :=
        subsetOuter_measure_lt _ _ hE (inference_1_ne_nil.mp hI1)
      calc measureKn (removalLoop (markPass { ai with knowledge := subsetPass ai.knowledge }).knowledge 0)
          ≤ measureKn (markPass { ai with knowledge := subsetPass ai.knowledge }).knowledge :=
            removalLoop_measure_le _
        _ ≤ measureKn (subsetPass ai.knowledge) := markPass_measure_le _
        _ < measureKn ai.knowledge := hs

/-- From any state, the while loop reaches a state with a false condition
within any budget exceeding the measure. -/
theorem loopGo_reaches_fixpoint :
    ∀ (f : Nat) (ai : AI), measureKn ai.knowledge < f →
      (AI.loopGo f ai).loopCond = false := by
  intro f
  induction f with
  | zero => intro ai h; omega
  | succ n ih =>
    intro ai h
    show (if ai.loopCond then AI.loopGo n ai.loopBody else ai).loopCond = false
    by_cases hc : ai.loopCond
    · rw [if_pos hc]
      exact ih _ (by have := loopBody_measure_lt hc; omega)
    · rw [if_neg hc]
      simp only [Bool.not_eq_true] at hc
      exact hc

/-- C2: `add_knowledge` terminates from every board and every knowledge-base
state: its while loop reaches a state falsifying the loop condition after
finitely many passes (`measureKn … + 1` is always enough, so the explicit
budget in `add_knowledge` never truncates the run), and the call returns that
fixpoint state. -/
theorem add_knowledge_terminates (ai : AI) (cell : Cell) (count : Int) :
    ∃ n : Nat, (AI.loopGo n (ai.observe cell count)).loopCond = false ∧
      ai.add_knowledge cell count = AI.loopGo n (ai.observe cell count) :=
  ⟨measureKn (ai.observe cell count).knowledge + 1,
    loopGo_reaches_fixpoint _ _ (Nat.lt_succ_self _), rfl⟩

theorem subsetOuter_forall {Q : Sentence → Prop} :
    ∀ (l kn : List Sentence), (∀ s ∈ kn, Q s) → (∀ s ∈ l, Q s) →
      (∀ t s2, Q t → Q s2 → t.is_subset s2 = true → Q (t.infer_new_sentance s2)) →
      ∀ s ∈ subsetOuter l kn, Q s := by
  intro l
  induction l with
  | nil => intro kn hkn _ _ s hs; exact hkn s hs
  | cons s1 rest ih =>
    intro kn hkn hl hrule s hs
    have hinner : ∀ s ∈ subsetInner s1 kn kn, Q s :=
      subsetInner_forall s1 kn kn hkn hkn
        (fun s2 hq hsub => hrule s1 s2 (hl s1 (List.mem_cons_self _ _)) hq hsub)
    exact ih _ hinner (fun t ht => hl t (List.mem_cons_of_mem _ ht)) hrule s hs

/-! ### Claims C3, C4, C6, C7 -/

/-- C3 counterexample: constructing a sentence whose count exceeds its cell
count does not fail — `Sentence(set(), 5)` is constructed and stores the
invalid count verbatim, and `add_knowledge` with an oracle count of 99 on a
2×2 board stores the sentence `{3 neighbours} = 99` unvalidated. -/
theorem construction_accepts_invalid_count :
    (Sentence.mk ∅ 5).count = 5 ∧ ((∅ : Finset Cell).card : Int) < 5 ∧
    (AI.add_knowledge (initialAI 2 2) (0, 0) 99).knowledge
      = [Sentence.mk {((0 : Int), (1 : Int)), ((1 : Int), (0 : Int)),
          ((1 : Int), (1 : Int))} 99] :=
  ⟨rfl, by decide, by decide⟩

/-- C3 (amended): construction performs no validation — `Sentence(cells, count)`
always succeeds and stores `cells` and `count` verbatim, even when `count < 0`
or `count > |cells|`. -/
theorem construction_stores_verbatim (cells : Finset Cell) (count : Int)
    (_h : count < 0 ∨ (cells.card : Int) < count) :
    (Sentence.mk cells count).cells = cells ∧ (Sentence.mk cells count).count = count :=
  ⟨rfl, rfl⟩

/-- C3 witness: the amended theorem applied at `Sentence(set(), 5)`. -/
theorem construction_stores_verbatim_witness :
    (Sentence.mk ∅ 5).cells = ∅ ∧ (Sentence.mk ∅ 5).count = 5 :=
  construction_stores_verbatim ∅ 5 (Or.inr (by decide))

/-- C4 counterexample: `mark_safe((0,0))` followed by `mark_mine((0,0))` on a
fresh knowledge base leaves `(0,0)` in both the safe set and the mine set; no
error of any kind is signalled. -/
theorem mark_contradiction_unchecked :
    ((0 : Int), (0 : Int)) ∈ (((initialAI 2 2).mark_safe (0, 0)).mark_mine (0, 0)).safes ∧
    ((0 : Int), (0 : Int)) ∈ (((initialAI 2 2).mark_safe (0, 0)).mark_mine (0, 0)).mines := by
  constructor <;> decide

/-- C4 (amended): `mark_mine`/`mark_safe` add the cell to their set
unconditionally and never fail; a cell already in the other set simply ends up
in both sets. -/
theorem mark_no_contradiction_check (ai : AI) (c : Cell) :
    (c ∈ ai.safes → c ∈ (ai.mark_mine c).safes ∧ c ∈ (ai.mark_mine c).mines) ∧
    (c ∈ ai.mines → c ∈ (ai.mark_safe c).mines ∧ c ∈ (ai.mark_safe c).safes) := by
  constructor
  · intro h
    exact ⟨h, Finset.mem_insert_self c ai.mines⟩
  · intro h
    exact ⟨h, Finset.mem_insert_self c ai.safes⟩

/-- C4 witness: the amended theorem at a state where `(0,0)` is already safe. -/
theorem mark_no_contradiction_check_witness :
    (((0 : Int), (0 : Int)) ∈ ((initialAI 2 2).mark_safe (0, 0)).safes →
      ((0 : Int), (0 : Int)) ∈ ((((initialAI 2 2).mark_safe (0, 0))).mark_mine (0, 0)).safes ∧
      ((0 : Int), (0 : Int)) ∈ ((((initialAI 2 2).mark_safe (0, 0))).mark_mine (0, 0)).mines) ∧
    (((0 : Int), (0 : Int)) ∈ ((initialAI 2 2).mark_safe (0, 0)).mines →
      ((0 : Int), (0 : Int)) ∈ ((((initialAI 2 2).mark_safe (0, 0))).mark_safe (0, 0)).mines ∧
      ((0 : Int), (0 : Int)) ∈ ((((initialAI 2 2).mark_safe (0, 0))).mark_safe (0, 0)).safes) :=
  mark_no_contradiction_check ((initialAI 2 2).mark_safe (0, 0)) (0, 0)

/-- C6: `is_subset` is true exactly when the cell set is a proper subset of the
other's (false on equal cell sets), and `infer_new_sentance` produces exactly
the sentence with cells `other.cells − self.cells` and count
`other.count − self.count`. -/
theorem subset_resolution_spec (s o : Sentence) :
    (s.is_subset o = true ↔ s.cells ⊂ o.cells) ∧
    (s.infer_new_sentance o).cells = o.cells \ s.cells ∧
    (s.infer_new_sentance o).count = o.count - s.count :=
  ⟨is_subset_iff_ssubset, rfl, rfl⟩

/-- C6 witness: the theorem at the spec's own example,
`A = {a,b,c} = 1`, `B = {a,b,c,d,e} = 2`. -/
theorem subset_resolution_spec_witness :
    ((Sentence.mk {((0 : Int), (0 : Int)), ((0 : Int), (1 : Int)), ((0 : Int), (2 : Int))} 1).is_subset
        (Sentence.mk {((0 : Int), (0 : Int)), ((0 : Int), (1 : Int)), ((0 : Int), (2 : Int)),
          ((0 : Int), (3 : Int)), ((0 : Int), (4 : Int))} 2) = true ↔
      (Sentence.mk {((0 : Int), (0 : Int)), ((0 : Int), (1 : Int)), ((0 : Int), (2 : Int))} 1).cells ⊂
        (Sentence.mk {((0 : Int), (0 : Int)), ((0 : Int), (1 : Int)), ((0 : Int), (2 : Int)),
          ((0 : Int), (3 : Int)), ((0 : Int), (4 : Int))} 2).cells) ∧
    ((Sentence.mk {((0 : Int), (0 : Int)), ((0 : Int), (1 : Int)), ((0 : Int), (2 : Int))} 1).infer_new_sentance
        (Sentence.mk {((0 : Int), (0 : Int)), ((0 : Int), (1 : Int)), ((0 : Int), (2 : Int)),
          ((0 : Int), (3 : Int)), ((0 : Int), (4 : Int))} 2)).cells =
      (Sentence.mk {((0 : Int), (0 : Int)), ((0 : Int), (1 : Int)), ((0 : Int), (2 : Int)),
          ((0 : Int), (3 : Int)), ((0 : Int), (4 : Int))} 2).cells \
        (Sentence.mk {((0 : Int), (0 : Int)), ((0 : Int), (1 : Int)), ((0 : Int), (2 : Int))} 1).cells ∧
    ((Sentence.mk {((0 : Int), (0 : Int)), ((0 : Int), (1 : Int)), ((0 : Int), (2 : Int))} 1).infer_new_sentance
        (Sentence.mk {((0 : Int), (0 : Int)), ((0 : Int), (1 : Int)), ((0 : Int), (2 : Int)),
          ((0 : Int), (3 : Int)), ((0 : Int), (4 : Int))} 2)).count = 2 - 1 :=
  subset_resolution_spec _ _

theorem observedSentence_cells (ai : AI) (cell : Cell) (count : Int) :
    (ai.observedSentence cell count).cells
      = neighborsOf ai.height ai.width cell \ (ai.mines ∪ ai.safes) := by
  have hcn : cell ∉ neighborsOf ai.height ai.width cell := not_mem_neighborsOf _ _ _
  simp only [AI.observedSentence]
  rw [foldl_mark_safe_cells, foldl_mark_mine_cells, toFinset_cellList, toFinset_cellList]
  by_cases hv : selfVisited ai.height ai.width cell
  · rw [if_pos hv]
    ext x
    simp only [Finset.mem_sdiff, Finset.mem_insert, Finset.mem_union]
    constructor
    · rintro ⟨⟨hn, hm⟩, hs⟩
      exact ⟨hn, by rintro (h | h) <;> [exact hm h; exact hs (Or.inr h)]⟩
    · rintro ⟨hn, hms⟩
      refine ⟨⟨hn, fun h => hms (Or.inl h)⟩, ?_⟩
      rintro (rfl | h)
      · exact hcn hn
      · exact hms (Or.inr h)
  · rw [if_neg hv]
    ext x
    simp only [Finset.mem_sdiff, Finset.mem_union]
    tauto

theorem observedSentence_count (ai : AI) (cell : Cell) (count : Int) :
    (ai.observedSentence cell count).count
      = count - ((neighborsOf ai.height ai.width cell ∩ ai.mines).card : Int) := by
  simp only [AI.observedSentence]
  rw [foldl_mark_safe_count, foldl_mark_mine_count, toFinset_cellList]

/-- C7: the sentence built by `add_knowledge` from observation `(cell, count)`
ranges over the in-bounds neighbours of `cell` minus the cells already proven
mine or safe, and its count is the observed count minus the number of dropped
neighbours that were proven mines. -/
theorem observedSentence_spec (ai : AI) (cell : Cell) (count : Int) :
    (ai.observedSentence cell count).cells
      = neighborsOf ai.height ai.width cell \ (ai.mines ∪ ai.safes) ∧
    (ai.observedSentence cell count).count
      = count - ((neighborsOf ai.height ai.width cell ∩ ai.mines).card : Int) :=
  ⟨observedSentence_cells ai cell count, observedSentence_count ai cell count⟩

/-! ### Board dimensions are never modified -/

theorem foldl_mark_safe_dims (l : List Cell) :
    ∀ ai : AI, dims (l.foldl AI.mark_safe ai) = dims ai := by
  induction l with
  | nil => intro ai; rfl
  | cons c rest ih => intro ai; exact ih (ai.mark_safe c)

theorem foldl_mark_mine_dims (l : List Cell) :
    ∀ ai : AI, dims (l.foldl AI.mark_mine ai) = dims ai := by
  induction l with
  | nil => intro ai; rfl
  | cons c rest ih => intro ai; exact ih (ai.mark_mine c)

theorem markStepMines_dims (ai : AI) (i : Nat) : dims (markStepMines ai i) = dims ai := by
  unfold markStepMines
  cases ai.knowledge[i]? with
  | none => rfl
  | some t => exact foldl_mark_mine_dims _ _

theorem markStep_dims (ai : AI) (i : Nat) : dims (markStep ai i) = dims ai := by
  unfold markStep
  cases ai.knowledge[i]? with
  | none => rfl
  | some s => exact (markStepMines_dims _ _).trans (foldl_mark_safe_dims _ _)

theorem foldl_markStep_dims :
    ∀ (idxs : List Nat) (ai : AI), dims (idxs.foldl markStep ai) = dims ai := by
  intro idxs
  induction idxs with
  | nil => intro ai; rfl
  | cons i rest ih => intro ai; exact (ih (markStep ai i)).trans (markStep_dims ai i)

theorem loopBody_dims (ai : AI) : dims ai.loopBody = dims ai :=
  foldl_markStep_dims _ _

theorem loopGo_dims : ∀ (f : Nat) (ai : AI), dims (AI.loopGo f ai) = dims ai := by
  intro f
  induction f with
  | zero => intro ai; rfl
  | succ n ih =>
    intro ai
    show dims (if ai.loopCond then AI.loopGo n ai.loopBody else ai) = dims ai
    by_cases hc : ai.loopCond
    · rw [if_pos hc]
      exact (ih _).trans (loopBody_dims ai)
    · rw [if_neg hc]

theorem observe_dims (ai : AI) (cell : Cell) (count : Int) :
    dims (ai.observe cell count) = dims ai := by
  simp only [AI.observe]
  by_cases hv : selfVisited ai.height ai.width cell
  · rw [if_pos hv]
    rfl
  · rw [if_neg hv]
    rfl

theorem add_knowledge_dims (ai : AI) (cell : Cell) (count : Int) :
    dims (ai.add_knowledge cell count) = dims ai :=
  (loopGo_dims _ _).trans (observe_dims _ _ _)

/-! ### Soundness of every operation for a ground-truth mine assignment -/

theorem truthful_infer {M : Finset Cell} {s1 s2 : Sentence}
    (h1 : truthful M s1) (h2 : truthful M s2) (hsub : s1.cells ⊆ s2.cells) :
    truthful M (s1.infer_new_sentance s2) := by
  unfold truthful at *
  show (((s2.cells \ s1.cells) ∩ M).card : Int) = s2.count - s1.count
  have heq : (s2.cells \ s1.cells) ∩ M = (s2.cells ∩ M) \ (s1.cells ∩ M) := by
    ext x
    simp only [Finset.mem_inter, Finset.mem_sdiff]
    tauto
  have hsub2 : s1.cells ∩ M ⊆ s2.cells ∩ M :=
    Finset.inter_subset_inter hsub (Finset.Subset.refl M)
  rw [heq, Finset.card_sdiff hsub2, Nat.cast_sub (Finset.card_le_card hsub2)]
  omega

theorem truthful_mark_safe {M : Finset Cell} {s : Sentence} {c : Cell}
    (hc : c ∉ M) (h : truthful M s) : truthful M (s.mark_safe c) := by
  unfold Sentence.mark_safe
  by_cases hm : c ∈ s.cells
  · rw [if_pos hm]
    unfold truthful at *
    show ((s.cells.erase c ∩ M).card : Int) = s.count
    have heq : s.cells.erase c ∩ M = s.cells ∩ M := by
      ext x
      simp only [Finset.mem_inter, Finset.mem_erase]
      constructor
      · rintro ⟨⟨_, hx⟩, hxm⟩; exact ⟨hx, hxm⟩
      · rintro ⟨hx, hxm⟩
        exact ⟨⟨fun hxc => hc (hxc ▸ hxm), hx⟩, hxm⟩
    rw [heq]; exact h
  · rw [if_neg hm]; exact h

theorem truthful_mark_mine {M : Finset Cell} {s : Sentence} {c : Cell}
    (hc : c ∈ M) (h : truthful M s) : truthful M (s.mark_mine c) := by
  unfold Sentence.mark_mine
  by_cases hm : c ∈ s.cells
  · rw [if_pos hm]
    unfold truthful at *
    show ((s.cells.erase c ∩ M).card : Int) = s.count - 1
    have heq : s.cells.erase c ∩ M = (s.cells ∩ M).erase c := by
      ext x
      simp only [Finset.mem_inter, Finset.mem_erase]
      tauto
    have hcm : c ∈ s.cells ∩ M := Finset.mem_inter.mpr ⟨hm, hc⟩
    have hpos : 1 ≤ (s.cells ∩ M).card := Finset.card_pos.mpr ⟨c, hcm⟩
    rw [heq, Finset.card_erase_of_mem hcm, Nat.cast_sub hpos]
    omega
  · rw [if_neg hm]; exact h

theorem known_safes_not_mine {M : Finset Cell} {s : Sentence} (ht : truthful M s) :
    ∀ c ∈ s.known_safes, c ∉ M := by
  intro c hc
  unfold Sentence.known_safes at hc
  by_cases h0 : s.count = 0
  · rw [if_pos h0] at hc
    unfold truthful at ht
    rw [h0] at ht
    have hz : (s.cells ∩ M).card = 0 := by exact_mod_cast ht
    have hempty : s.cells ∩ M = ∅ := Finset.card_eq_zero.mp hz
    intro hcM
    have hmem : c ∈ s.cells ∩ M := Finset.mem_inter.mpr ⟨hc, hcM⟩
    rw [hempty] at hmem
    exact Finset.not_mem_empty c hmem
  · rw [if_neg h0] at hc
    exact absurd hc (Finset.not_mem_empty c)

theorem known_mines_in_M {M : Finset Cell} {s : Sentence} (ht : truthful M s) :
    ∀ c ∈ s.known_mines, c ∈ M := by
  intro c hc
  unfold Sentence.known_mines at hc
  by_cases h0 : (s.cells.card : Int) = s.count
  · rw [if_pos h0] at hc
    unfold truthful at ht
    have hcard : (s.cells ∩ M).card = s.cells.card := by
      have h2 := ht.trans h0.symm
      exact_mod_cast h2
    have heq : s.cells ∩ M = s.cells :=
      Finset.eq_of_subset_of_card_le Finset.inter_subset_left (by omega)
    have hmem : c ∈ s.cells ∩ M := heq.symm ▸ hc
    exact (Finset.mem_inter.mp hmem).2
  · rw [if_neg h0] at hc
    exact absurd hc (Finset.not_mem_empty c)

theorem sound_mark_safe {M : Finset Cell} {ai : AI} {c : Cell}
    (hc : c ∉ M) (h : Sound M ai) : Sound M (ai.mark_safe c) := by
  obtain ⟨hkn, hsafe, hmine⟩ := h
  refine ⟨?_, ?_, hmine⟩
  · intro s hs
    rcases List.mem_map.mp hs with ⟨t, ht, rfl⟩
    exact truthful_mark_safe hc (hkn t ht)
  · show insert c ai.safes ∩ M = ∅
    ext x
    simp only [Finset.mem_inter, Finset.mem_insert, Finset.not_mem_empty, iff_false]
    rintro ⟨rfl | hx, hxM⟩
    · exact hc hxM
    · exact Finset.not_mem_empty x (hsafe ▸ Finset.mem_inter.mpr ⟨hx, hxM⟩)

theorem sound_mark_mine {M : Finset Cell} {ai : AI} {c : Cell}
    (hc : c ∈ M) (h : Sound M ai) : Sound M (ai.mark_mine c) := by
  obtain ⟨hkn, hsafe, hmine⟩ := h
  refine ⟨?_, hsafe, ?_⟩
  · intro s hs
    rcases List.mem_map.mp hs with ⟨t, ht, rfl⟩
    exact truthful_mark_mine hc (hkn t ht)
  · intro x hx
    rcases Finset.mem_insert.mp hx with rfl | hx1
    · exact hc
    · exact hmine hx1

theorem sound_foldl_mark_safe {M : Finset Cell} :
    ∀ (l : List Cell) (ai : AI), (∀ c ∈ l, c ∉ M) → Sound M ai →
      Sound M (l.foldl AI.mark_safe ai) := by
  intro l
  induction l with
  | nil => intro ai _ h; exact h
  | cons c rest ih =>
    intro ai hl h
    exact ih (ai.mark_safe c) (fun d hd => hl d (List.mem_cons_of_mem _ hd))
      (sound_mark_safe (hl c (List.mem_cons_self _ _)) h)

theorem sound_foldl_mark_mine {M : Finset Cell} :
    ∀ (l : List Cell) (ai : AI), (∀ c ∈ l, c ∈ M) → Sound M ai →
      Sound M (l.foldl AI.mark_mine ai) := by
  intro l
  induction l with
  | nil => intro ai _ h; exact h
  | cons c rest ih =>
    intro ai hl h
    exact ih (ai.mark_mine c) (fun d hd => hl d (List.mem_cons_of_mem _ hd))
      (sound_mark_mine (hl c (List.mem_cons_self _ _)) h)

theorem sound_markStep {M : Finset Cell} {ai : AI} (h : Sound M ai) (i : Nat) :
    Sound M (markStep ai i) := by
  unfold markStep
  cases hk : ai.knowledge[i]? with
  | none => exact h
  | some s =>
    show Sound M (markStepMines ((cellList s.known_safes).foldl AI.mark_safe ai) i)
    have hts : truthful M s := h.1 s (List.getElem?_mem hk)
    have h1 : Sound M ((cellList s.known_safes).foldl AI.mark_safe ai) :=
      sound_foldl_mark_safe _ ai
        (fun c hc => known_safes_not_mine hts c (mem_cellList.mp hc)) h
    unfold markStepMines
    cases hk2 : ((cellList s.known_safes).foldl AI.mark_safe ai).knowledge[i]? with
    | none => exact h1
    | some t =>
      show Sound M ((cellList t.known_mines).foldl AI.mark_mine
        ((cellList s.known_safes).foldl AI.mark_safe ai))
      have htt : truthful M t := h1.1 t (List.getElem?_mem hk2)
      exact sound_foldl_mark_mine _ _
        (fun c hc => known_mines_in_M htt c (mem_cellList.mp hc)) h1

theorem sound_foldl_markStep {M : Finset Cell} :
    ∀ (idxs : List Nat) (ai : AI), Sound M ai → Sound M (idxs.foldl markStep ai) := by
  intro idxs
  induction idxs with
  | nil => intro ai h; exact h
  | cons i rest ih => intro ai h; exact ih (markStep ai i) (sound_markStep h i)

theorem sound_loopBody {M : Finset Cell} {ai : AI} (h : Sound M ai) :
    Sound M ai.loopBody := by
  obtain ⟨hkn, hsafe, hmine⟩ := h
  have h1 : Sound M { ai with knowledge := subsetPass ai.knowledge } := by
    refine ⟨?_, hsafe, hmine⟩
    intro s hs
    exact subsetOuter_forall _ _ hkn hkn
      (fun t s2 ht hs2 hsub => truthful_infer ht hs2 (is_subset_iff.mp hsub).2) s hs
  have h2 : Sound M (markPass { ai with knowledge := subsetPass ai.knowledge }) :=
    sound_foldl_markStep _ _ h1
  show Sound M { markPass { ai with knowledge := subsetPass ai.knowledge } with
    knowledge := removalLoop (markPass { ai with knowledge := subsetPass ai.knowledge }).knowledge 0 }
  refine ⟨?_, h2.2.1, h2.2.2⟩
  intro s hs
  exact h2.1 s (removalGo_mem _ _ _ hs)

theorem sound_loopGo {M : Finset Cell} :
    ∀ (f : Nat) (ai : AI), Sound M ai → Sound M (AI.loopGo f ai) := by
  intro f
  induction f with
  | zero => intro ai h; exact h
  | succ n ih =>
    intro ai h
    show Sound M (if ai.loopCond then AI.loopGo n ai.loopBody else ai)
    by_cases hc : ai.loopCond
    · rw [if_pos hc]
      exact ih _ (sound_loopBody h)
    · rw [if_neg hc]
      exact h

theorem sound_observe {M : Finset Cell} {ai : AI} {cell : Cell} {count : Int}
    (h : Sound M ai) (hcM : cell ∉ M)
    (hcount : ((neighborsOf ai.height ai.width cell ∩ M).card : Int) = count) :
    Sound M (ai.observe cell count) := by
  have h1 : Sound M (if selfVisited ai.height ai.width cell
      then { ai.mark_safe cell with moves_made := insert cell ai.moves_made } else ai) := by
    by_cases hv : selfVisited ai.height ai.width cell
    · rw [if_pos hv]
      exact sound_mark_safe hcM h
    · rw [if_neg hv]
      exact h
  have htr : truthful M (ai.observedSentence cell count) := by
    unfold truthful
    rw [observedSentence_cells, observedSentence_count]
    obtain ⟨hkn, hsafe, hmine⟩ := h
    have heq : (neighborsOf ai.height ai.width cell \ (ai.mines ∪ ai.safes)) ∩ M
        = (neighborsOf ai.height ai.width cell ∩ M) \ ai.mines := by
      ext x
      simp only [Finset.mem_inter, Finset.mem_sdiff, Finset.mem_union]
      constructor
      · rintro ⟨⟨hn, hms⟩, hxM⟩
        exact ⟨⟨hn, hxM⟩, fun hm => hms (Or.inl hm)⟩
      · rintro ⟨⟨hn, hxM⟩, hm⟩
        refine ⟨⟨hn, ?_⟩, hxM⟩
        rintro (h1 | h1)
        · exact hm h1
        · exact Finset.not_mem_empty x (hsafe ▸ Finset.mem_inter.mpr ⟨h1, hxM⟩)
    have hsplit : ((neighborsOf ai.height ai.width cell ∩ M) \ ai.mines).card
        + ((neighborsOf ai.height ai.width cell ∩ M) ∩ ai.mines).card
        = (neighborsOf ai.height ai.width cell ∩ M).card :=
      Finset.card_sdiff_add_card_inter _ _
    have hmm : (neighborsOf ai.height ai.width cell ∩ M) ∩ ai.mines
        = neighborsOf ai.height ai.width cell ∩ ai.mines := by
      ext x
      simp only [Finset.mem_inter]
      constructor
      · rintro ⟨⟨hn, _⟩, hm⟩; exact ⟨hn, hm⟩
      · rintro ⟨hn, hm⟩; exact ⟨⟨hn, hmine hm⟩, hm⟩
    rw [heq]
    rw [hmm] at hsplit
    omega
  obtain ⟨hk1, hs1, hm1⟩ := h1
  refine ⟨?_, hs1, hm1⟩
  intro s hs
  have hs2 : s ∈ (if selfVisited ai.height ai.width cell
      then { ai.mark_safe cell with moves_made := insert cell ai.moves_made }
      else ai).knowledge ++ [ai.observedSentence cell count] := hs
  rcases List.mem_append.mp hs2 with h2 | h2
  · exact hk1 s h2
  · rw [List.mem_singleton.mp h2]
    exact htr

theorem sound_add_knowledge {M : Finset Cell} {ai : AI} {cell : Cell} {count : Int}
    (h : Sound M ai) (hcM : cell ∉ M)
    (hcount : ((neighborsOf ai.height ai.width cell ∩ M).card : Int) = count) :
    Sound M (ai.add_knowledge cell count) :=
  sound_loopGo _ _ (sound_observe h hcM hcount)

/-- C1: soundness of the knowledge base.  For every ground-truth mine
assignment `M` and every sequence of truthful observations (the observed cell
is not a mine and the reported count is the number of its in-bounds neighbours
in `M`) fed to `add_knowledge` from a fresh state, the resulting state is
sound: every held sentence has exactly `count` of its cells in `M`, no
proven-safe cell is in `M`, and every proven-mine cell is in `M`.  Applying
this to every prefix of the observation sequence gives soundness after every
call. -/
theorem knowledge_base_sound (height width : Int) (M : Finset Cell)
    (obs : List (Cell × Int))
    (h : ∀ p ∈ obs, p.1 ∉ M ∧ ((neighborsOf height width p.1 ∩ M).card : Int) = p.2) :
    Sound M (obs.foldl (fun ai p => ai.add_knowledge p.1 p.2) (initialAI height width)) := by
  suffices hgen : ∀ (l : List (Cell × Int)) (ai : AI), dims ai = (height, width) →
      Sound M ai →
      (∀ p ∈ l, p.1 ∉ M ∧ ((neighborsOf height width p.1 ∩ M).card : Int) = p.2) →
      Sound M (l.foldl (fun ai p => ai.add_knowledge p.1 p.2) ai) by
    refine hgen obs (initialAI height width) rfl ?_ h
    exact ⟨fun s hs => absurd hs (List.not_mem_nil s), by simp [initialAI], by simp [initialAI]⟩
  intro l
  induction l with
  | nil => intro ai _ hS _; exact hS
  | cons p rest ih =>
    intro ai hdims hS hobs
    obtain ⟨hp1, hp2⟩ := hobs p (List.mem_cons_self _ _)
    have hd1 : ai.height = height := congrArg Prod.fst hdims
    have hd2 : ai.width = width := congrArg Prod.snd hdims
    rw [List.foldl_cons]
    refine ih _ ?_ ?_ (fun q hq => hobs q (List.mem_cons_of_mem _ hq))
    · exact (add_knowledge_dims ai p.1 p.2).trans hdims
    · exact sound_add_knowledge hS hp1 (by rw [hd1, hd2]; exact hp2)

/-- C1 witness: one truthful observation, `(0,0)` reporting count 1, on a 2×2
board whose only mine is `(1,1)`. -/
theorem knowledge_base_sound_witness :
    Sound {((1 : Int), (1 : Int))}
      ([(((0 : Int), (0 : Int)), (1 : Int))].foldl
        (fun ai p => ai.add_knowledge p.1 p.2) (initialAI 2 2)) :=
  knowledge_base_sound 2 2 {((1 : Int), (1 : Int))} [(((0 : Int), (0 : Int)), 1)] (by
    intro p hp
    rw [List.mem_singleton.mp hp]
    exact ⟨by decide, by decide⟩)

/-! ### C9: the fact sets only grow -/

theorem grows_refl (ai : AI) : grows ai ai :=
  ⟨Finset.Subset.refl _, Finset.Subset.refl _, Finset.Subset.refl _⟩

theorem grows_trans {a b c : AI} (h1 : grows a b) (h2 : grows b c) : grows a c :=
  ⟨h1.1.trans h2.1, h1.2.1.trans h2.2.1, h1.2.2.trans h2.2.2⟩

theorem mark_safe_grows (ai : AI) (c : Cell) : grows ai (ai.mark_safe c) :=
  ⟨Finset.Subset.refl _, Finset.subset_insert c ai.safes, Finset.Subset.refl _⟩

theorem mark_mine_grows (ai : AI) (c : Cell) : grows ai (ai.mark_mine c) :=
  ⟨Finset.Subset.refl _, Finset.Subset.refl _, Finset.subset_insert c ai.mines⟩

theorem foldl_mark_safe_grows (l : List Cell) :
    ∀ ai : AI, grows ai (l.foldl AI.mark_safe ai) := by
  induction l with
  | nil => intro ai; exact grows_refl ai
  | cons c rest ih =>
    intro ai
    exact grows_trans (mark_safe_grows ai c) (ih (ai.mark_safe c))

theorem foldl_mark_mine_grows (l : List Cell) :
    ∀ ai : AI, grows ai (l.foldl AI.mark_mine ai) := by
  induction l with
  | nil => intro ai; exact grows_refl ai
  | cons c rest ih =>
    intro ai
    exact grows_trans (mark_mine_grows ai c) (ih (ai.mark_mine c))

theorem markStepMines_grows (ai : AI) (i : Nat) : grows ai (markStepMines ai i) := by
  unfold markStepMines
  cases ai.knowledge[i]? with
  | none => exact grows_refl ai
  | some t => exact foldl_mark_mine_grows _ ai

theorem markStep_grows (ai : AI) (i : Nat) : grows ai (markStep ai i) := by
  unfold markStep
  cases ai.knowledge[i]? with
  | none => exact grows_refl ai
  | some s =>
    exact grows_trans (foldl_mark_safe_grows _ ai) (markStepMines_grows _ i)

theorem foldl_markStep_grows :
    ∀ (idxs : List Nat) (ai : AI), grows ai (idxs.foldl markStep ai) := by
  intro idxs
  induction idxs with
  | nil => intro ai; exact grows_refl ai
  | cons i rest ih =>
    intro ai
    exact grows_trans (markStep_grows ai i) (ih (markStep ai i))

theorem loopBody_grows (ai : AI) : grows ai ai.loopBody := by
  have g1 : grows ai { ai with knowledge := subsetPass ai.knowledge } := grows_refl ai
  have g2 : grows { ai with knowledge := subsetPass ai.knowledge }
      (markPass { ai with knowledge := subsetPass ai.knowledge }) :=
    foldl_markStep_grows _ _
  have g3 : grows (markPass { ai with knowledge := subsetPass ai.knowledge }) ai.loopBody :=
    grows_refl _
  exact grows_trans g1 (grows_trans g2 g3)

theorem loopGo_grows : ∀ (f : Nat) (ai : AI), grows ai (AI.loopGo f ai) := by
  intro f
  induction f with
  | zero => intro ai; exact grows_refl ai
  | succ n ih =>
    intro ai
    show grows ai (if ai.loopCond then AI.loopGo n ai.loopBody else ai)
    by_cases hc : ai.loopCond
    · rw [if_pos hc]
      exact grows_trans (loopBody_grows ai) (ih ai.loopBody)
    · rw [if_neg hc]
      exact grows_refl ai

theorem observe_grows (ai : AI) (cell : Cell) (count : Int) :
    grows ai (ai.observe cell count) := by
  simp only [AI.observe]
  by_cases hv : selfVisited ai.height ai.width cell
  · rw [if_pos hv]
    exact ⟨Finset.subset_insert _ _, Finset.subset_insert _ _, Finset.Subset.refl _⟩
  · rw [if_neg hv]
    exact grows_refl ai

theorem add_knowledge_grows (ai : AI) (cell : Cell) (count : Int) :
    grows ai (ai.add_knowledge cell count) :=
  grows_trans (observe_grows ai cell count) (loopGo_grows _ _)

/-- C9: monotone growth of the fact sets — after `add_knowledge`, `mark_safe`
or `mark_mine`, the sets `moves_made`, `safes` and `mines` are supersets of
their previous values; the two query operations are pure (they return only an
optional cell, no state). -/
theorem fact_sets_monotone (ai : AI) (cell : Cell) (count : Int) (c : Cell) :
    (ai.moves_made ⊆ (ai.add_knowledge cell count).moves_made ∧
      ai.safes ⊆ (ai.add_knowledge cell count).safes ∧
      ai.mines ⊆ (ai.add_knowledge cell count).mines) ∧
    (ai.moves_made ⊆ (ai.mark_safe c).moves_made ∧
      ai.safes ⊆ (ai.mark_safe c).safes ∧
      ai.mines ⊆ (ai.mark_safe c).mines) ∧
    (ai.moves_made ⊆ (ai.mark_mine c).moves_made ∧
      ai.safes ⊆ (ai.mark_mine c).safes ∧
      ai.mines ⊆ (ai.mark_mine c).mines) :=
  ⟨add_knowledge_grows ai cell count, mark_safe_grows ai c, mark_mine_grows ai c⟩

/-! ### C10: marked cells are stripped from every sentence -/

theorem mark_safe_sentence_not_mem (s : Sentence) (c : Cell) :
    c ∉ (s.mark_safe c).cells := by
  by_cases h : c ∈ s.cells
  · rw [mark_safe_cells_eq, if_pos h]
    exact Finset.not_mem_erase c _
  · rw [mark_safe_cells_eq, if_neg h]
    exact h

theorem mark_mine_sentence_not_mem (s : Sentence) (c : Cell) :
    c ∉ (s.mark_mine c).cells := by
  by_cases h : c ∈ s.cells
  · rw [mark_mine_cells_eq, if_pos h]
    exact Finset.not_mem_erase c _
  · rw [mark_mine_cells_eq, if_neg h]
    exact h

theorem mark_safe_sentence_subset (s : Sentence) (c : Cell) :
    (s.mark_safe c).cells ⊆ s.cells := by
  rw [mark_safe_cells_eq]
  split
  · exact Finset.erase_subset _ _
  · exact Finset.Subset.refl _

theorem mark_mine_sentence_subset (s : Sentence) (c : Cell) :
    (s.mark_mine c).cells ⊆ s.cells := by
  rw [mark_mine_cells_eq]
  split
  · exact Finset.erase_subset _ _
  · exact Finset.Subset.refl _

theorem stripped_mark_safe {ai : AI} (c : Cell) (h : Stripped ai) :
    Stripped (ai.mark_safe c) := by
  intro s hs d hd
  rcases List.mem_map.mp hs with ⟨t, ht, rfl⟩
  rcases hd with hd | hd
  · rcases Finset.mem_insert.mp hd with rfl | hd1
    · exact mark_safe_sentence_not_mem t d
    · intro hmem
      exact h t ht d (Or.inl hd1) (mark_safe_sentence_subset t c hmem)
  · intro hmem
    exact h t ht d (Or.inr hd) (mark_safe_sentence_subset t c hmem)

theorem stripped_mark_mine {ai : AI} (c : Cell) (h : Stripped ai) :
    Stripped (ai.mark_mine c) := by
  intro s hs d hd
  rcases List.mem_map.mp hs with ⟨t, ht, rfl⟩
  rcases hd with hd | hd
  · intro hmem
    exact h t ht d (Or.inl hd) (mark_mine_sentence_subset t c hmem)
  · rcases Finset.mem_insert.mp hd with rfl | hd1
    · exact mark_mine_sentence_not_mem t d
    · intro hmem
      exact h t ht d (Or.inr hd1) (mark_mine_sentence_subset t c hmem)

theorem stripped_foldl_mark_safe (l : List Cell) :
    ∀ ai : AI, Stripped ai → Stripped (l.foldl AI.mark_safe ai) := by
  induction l with
  | nil => intro ai h; exact h
  | cons c rest ih =>
    intro ai h
    exact ih (ai.mark_safe c) (stripped_mark_safe c h)

theorem stripped_foldl_mark_mine (l : List Cell) :
    ∀ ai : AI, Stripped ai → Stripped (l.foldl AI.mark_mine ai) := by
  induction l with
  | nil => intro ai h; exact h
  | cons c rest ih =>
    intro ai h
    exact ih (ai.mark_mine c) (stripped_mark_mine c h)

theorem stripped_markStep {ai : AI} (i : Nat) (h : Stripped ai) :
    Stripped (markStep ai i) := by
  unfold markStep
  cases ai.knowledge[i]? with
  | none => exact h
  | some s =>
    show Stripped (markStepMines ((cellList s.known_safes).foldl AI.mark_safe ai) i)
    have h1 := stripped_foldl_mark_safe (cellList s.known_safes) ai h
    unfold markStepMines
    cases ((cellList s.known_safes).foldl AI.mark_safe ai).knowledge[i]? with
    | none => exact h1
    | some t =>
      show Stripped ((cellList t.known_mines).foldl AI.mark_mine
        ((cellList s.known_safes).foldl AI.mark_safe ai))
      exact stripped_foldl_mark_mine _ _ h1

theorem stripped_foldl_markStep :
    ∀ (idxs : List Nat) (ai : AI), Stripped ai → Stripped (idxs.foldl markStep ai) := by
  intro idxs
  induction idxs with
  | nil => intro ai h; exact h
  | cons i rest ih =>
    intro ai h
    exact ih (markStep ai i) (stripped_markStep i h)

theorem stripped_loopBody {ai : AI} (h : Stripped ai) : Stripped ai.loopBody := by
  have h1 : Stripped { ai with knowledge := subsetPass ai.knowledge } := by
    intro s hs d hd
    refine subsetOuter_forall
      (Q := fun t => ∀ d : Cell, d ∈ ai.safes ∨ d ∈ ai.mines → d ∉ t.cells)
      _ _ (fun t ht => h t ht) (fun t ht => h t ht) ?_ s hs d hd
    intro t s2 _ hq2 _ d hd2 hmem
    exact hq2 d hd2 (Finset.sdiff_subset hmem)
  have h2 : Stripped (markPass { ai with knowledge := subsetPass ai.knowledge }) :=
    stripped_foldl_markStep _ _ h1
  intro s hs d hd
  exact h2 s (removalGo_mem _ _ _ hs) d hd

theorem stripped_loopGo :
    ∀ (f : Nat) (ai : AI), Stripped ai → Stripped (AI.loopGo f ai) := by
  intro f
  induction f with
  | zero => intro ai h; exact h
  | succ n ih =>
    intro ai h
    show Stripped (if ai.loopCond then AI.loopGo n ai.loopBody else ai)
    by_cases hc : ai.loopCond
    · rw [if_pos hc]
      exact ih _ (stripped_loopBody h)
    · rw [if_neg hc]
      exact h

/-- The fields of `observe`, separated by whether the double loop visited the
observed cell. -/
theorem observe_fields (ai : AI) (cell : Cell) (count : Int) :
    (ai.observe cell count).knowledge
      = (if selfVisited ai.height ai.width cell
          then (ai.mark_safe cell).knowledge else ai.knowledge)
        ++ [ai.observedSentence cell count] ∧
    (ai.observe cell count).safes
      = (if selfVisited ai.height ai.width cell then insert cell ai.safes else ai.safes) ∧
    (ai.observe cell count).mines = ai.mines := by
  simp only [AI.observe]
  by_cases hv : selfVisited ai.height ai.width cell
  · simp [if_pos hv, AI.mark_safe]
  · simp [if_neg hv]

theorem stripped_observe {ai : AI} (cell : Cell) (count : Int) (h : Stripped ai) :
    Stripped (ai.observe cell count) := by
  have hobs : ∀ d : Cell, d = cell ∨ d ∈ ai.safes ∨ d ∈ ai.mines →
      d ∉ (ai.observedSentence cell count).cells := by
    intro d hd hmem
    rw [observedSentence_cells] at hmem
    rcases Finset.mem_sdiff.mp hmem with ⟨hn, hnot⟩
    rcases hd with rfl | hd | hd
    · exact not_mem_neighborsOf _ _ _ hn
    · exact hnot (Finset.mem_union_right _ hd)
    · exact hnot (Finset.mem_union_left _ hd)
  obtain ⟨hkn, hsafes, hmines⟩ := observe_fields ai cell count
  intro s hs d hd
  rw [hkn] at hs
  rw [hsafes, hmines] at hd
  rcases List.mem_append.mp hs with h1 | h1
  · by_cases hv : selfVisited ai.height ai.width cell
    · rw [if_pos hv] at h1
      rw [if_pos hv] at hd
      refine stripped_mark_safe cell h s h1 d ?_
      rcases hd with hd | hd
      · exact Or.inl hd
      · exact Or.inr hd
    · rw [if_neg hv] at h1
      rw [if_neg hv] at hd
      exact h s h1 d hd
  · rw [List.mem_singleton.mp h1]
    refine hobs d ?_
    by_cases hv : selfVisited ai.height ai.width cell
    · rw [if_pos hv] at hd
      rcases hd with hd | hd
      · rcases Finset.mem_insert.mp hd with rfl | hd1
        · exact Or.inl rfl
        · exact Or.inr (Or.inl hd1)
      · exact Or.inr (Or.inr hd)
    · rw [if_neg hv] at hd
      rcases hd with hd | hd
      · exact Or.inr (Or.inl hd)
      · exact Or.inr (Or.inr hd)

theorem stripped_add_knowledge {ai : AI} (cell : Cell) (count : Int) (h : Stripped ai) :
    Stripped (ai.add_knowledge cell count) :=
  stripped_loopGo _ _ (stripped_observe cell count h)

/-- C10: if every proven-safe and proven-mine cell is absent from every
sentence, this remains true after `mark_safe`, `mark_mine` and
`add_knowledge`; moreover `mark_safe`/`mark_mine` always leave the marked
cell in no sentence, and `add_knowledge` leaves the observed cell in no
sentence whenever the double loop visited it (the in-bounds case, where the
cell is marked safe). -/
theorem marked_cells_stripped (ai : AI) (c cell : Cell) (count : Int)
    (h : Stripped ai) :
    Stripped (ai.mark_safe c) ∧ Stripped (ai.mark_mine c) ∧
    Stripped (ai.add_knowledge cell count) ∧
    (∀ s ∈ (ai.mark_safe c).knowledge, c ∉ s.cells) ∧
    (∀ s ∈ (ai.mark_mine c).knowledge, c ∉ s.cells) ∧
    (selfVisited ai.height ai.width cell = true →
      ∀ s ∈ (ai.add_knowledge cell count).knowledge, cell ∉ s.cells) := by
  refine ⟨stripped_mark_safe c h, stripped_mark_mine c h,
    stripped_add_knowledge cell count h, ?_, ?_, ?_⟩
  · intro s hs
    rcases List.mem_map.mp hs with ⟨t, _, rfl⟩
    exact mark_safe_sentence_not_mem t c
  · intro s hs
    rcases List.mem_map.mp hs with ⟨t, _, rfl⟩
    exact mark_mine_sentence_not_mem t c
  · intro hv s hs
    have hcell : cell ∈ (ai.add_knowledge cell count).safes := by
      have h1 : cell ∈ (ai.observe cell count).safes := by
        rw [(observe_fields ai cell count).2.1, if_pos hv]
        exact Finset.mem_insert_self cell ai.safes
      exact (loopGo_grows _ (ai.observe cell count)).2.1 h1
    exact stripped_add_knowledge cell count h s hs cell (Or.inl hcell)

/-- C10 witness: the theorem at a fresh 2×2 state (trivially stripped). -/
theorem marked_cells_stripped_witness :
    Stripped ((initialAI 2 2).mark_safe (0, 0)) ∧
    Stripped ((initialAI 2 2).mark_mine (0, 0)) ∧
    Stripped ((initialAI 2 2).add_knowledge (0, 0) 1) ∧
    (∀ s ∈ ((initialAI 2 2).mark_safe (0, 0)).knowledge, ((0 : Int), (0 : Int)) ∉ s.cells) ∧
    (∀ s ∈ ((initialAI 2 2).mark_mine (0, 0)).knowledge, ((0 : Int), (0 : Int)) ∉ s.cells) ∧
    (selfVisited (initialAI 2 2).height (initialAI 2 2).width (0, 0) = true →
      ∀ s ∈ ((initialAI 2 2).add_knowledge (0, 0) 1).knowledge,
        ((0 : Int), (0 : Int)) ∉ s.cells) :=
  marked_cells_stripped (initialAI 2 2) (0, 0) (0, 0) 1
    (fun s hs => absurd hs (List.not_mem_nil s))

/-! ### C5: empty sentences can persist in the knowledge list -/

/-- C5 counterexample: on a 1×1 board the observation `((0,0), 0)` has no
neighbours, so the built sentence has an empty cell set; it is appended
unconditionally and the loop condition is already false, so `add_knowledge`
returns with the empty sentence still in the knowledge list. -/
theorem empty_sentence_persists :
    (AI.add_knowledge (initialAI 1 1) (0, 0) 0).knowledge = [Sentence.mk ∅ 0] := by
  decide

/-- C5 (amended): `add_knowledge` appends the observation sentence to the
knowledge list even when its cell set is empty, and when the fixpoint loop
performs no pass (its condition is false immediately after the append) the
empty sentence is still present when the call returns. -/
theorem empty_observation_kept (ai : AI) (cell : Cell) (count : Int)
    (h1 : (ai.observedSentence cell count).cells = ∅)
    (h2 : (ai.observe cell count).loopCond = false) :
    ∃ s ∈ (ai.add_knowledge cell count).knowledge, s.cells = ∅ := by
  have hgo : ∀ f : Nat, AI.loopGo f (ai.observe cell count) = ai.observe cell count := by
    intro f
    cases f with
    | zero => rfl
    | succ n =>
      show (if (ai.observe cell count).loopCond then _ else _) = _
      rw [h2]
      simp
  show ∃ s ∈ (AI.loopGo (measureKn (ai.observe cell count).knowledge + 1)
    (ai.observe cell count)).knowledge, s.cells = ∅
  rw [hgo]
  refine ⟨ai.observedSentence cell count, ?_, h1⟩
  rw [(observe_fields ai cell count).1]
  exact List.mem_append_right _ (List.mem_singleton_self _)

/-- C5 witness: the amended theorem at the 1×1 input. -/
theorem empty_observation_kept_witness :
    ((initialAI 1 1).observedSentence (0, 0) 0).cells = ∅ ∧
    ((initialAI 1 1).observe (0, 0) 0).loopCond = false ∧
    ∃ s ∈ ((initialAI 1 1).add_knowledge (0, 0) 0).knowledge, s.cells = ∅ :=
  ⟨by decide, by decide,
    empty_observation_kept (initialAI 1 1) (0, 0) 0 (by decide) (by decide)⟩

/-! ### C8: the two query operations -/

theorem mem_intRange {a b x : Int} : x ∈ intRange a b ↔ a ≤ x ∧ x < b := by
  unfold intRange
  constructor
  · intro hx
    rcases List.mem_map.mp hx with ⟨k, hk, rfl⟩
    rw [List.mem_range] at hk
    omega
  · rintro ⟨h1, h2⟩
    refine List.mem_map.mpr ⟨(x - a).toNat, ?_, by omega⟩
    rw [List.mem_range]
    omega

theorem mem_possible_moves {ai : AI} {c : Cell} :
    c ∈ ai.possible_moves ↔
      0 ≤ c.1 ∧ c.1 < ai.height ∧ 0 ≤ c.2 ∧ c.2 < ai.width ∧
        c ∉ ai.moves_made ∧ c ∉ ai.mines := by
  unfold AI.possible_moves
  simp only [List.mem_flatMap, List.mem_filterMap]
  constructor
  · rintro ⟨i, hi, j, hj, hopt⟩
    split at hopt
    · rcases Option.some.inj hopt with rfl
      rcases mem_intRange.mp hi with ⟨hi1, hi2⟩
      rcases mem_intRange.mp hj with ⟨hj1, hj2⟩
      rename_i hcond
      exact ⟨hi1, hi2, hj1, hj2, hcond.1, hcond.2⟩
    · cases hopt
  · rintro ⟨h1, h2, h3, h4, h5, h6⟩
    refine ⟨c.1, mem_intRange.mpr ⟨h1, h2⟩, c.2, mem_intRange.mpr ⟨h3, h4⟩, ?_⟩
    rw [if_pos ⟨h5, h6⟩]

theorem make_safe_move_some {ai : AI} {c : Cell} (h : ai.make_safe_move = some c) :
    c ∈ ai.safes ∧ c ∉ ai.moves_made ∧ c ∉ ai.mines := by
  unfold AI.make_safe_move at h
  have h1 := List.find?_some h
  have h2 := List.mem_of_find?_eq_some h
  simp only [Bool.and_eq_true, decide_eq_true_eq] at h1
  exact ⟨mem_cellList.mp h2, h1.1, h1.2⟩

theorem make_safe_move_none {ai : AI} :
    ai.make_safe_move = none ↔ ∀ c ∈ ai.safes, c ∈ ai.moves_made ∨ c ∈ ai.mines := by
  unfold AI.make_safe_move
  rw [List.find?_eq_none]
  constructor
  · intro h c hc
    have h2 := h c (mem_cellList.mpr hc)
    simp only [Bool.and_eq_true, decide_eq_true_eq] at h2
    by_contra hcon
    push_neg at hcon
    exact h2 ⟨hcon.1, hcon.2⟩
  · intro h c hc
    simp only [Bool.and_eq_true, decide_eq_true_eq]
    rintro ⟨hm, hn⟩
    rcases h c (mem_cellList.mp hc) with h1 | h1
    exacts [hm h1, hn h1]

theorem make_random_move_none {ai : AI} {r : Nat} :
    ai.make_random_move r = none ↔ ai.possible_moves = [] := by
  unfold AI.make_random_move
  constructor
  · intro h
    by_contra hne
    have hlen : 0 < ai.possible_moves.length := List.length_pos.mpr hne
    have hlt : r % ai.possible_moves.length < ai.possible_moves.length :=
      Nat.mod_lt _ hlen
    rw [List.getElem?_eq_getElem hlt] at h
    cases h
  · intro h
    rw [h]
    rfl

/-- C8 counterexample: with `(0,0)` proven safe and also proven mine (nothing
prevents this, see C4), `safes \ moves_made` is non-empty yet `make_safe_move`
returns `None`: the code also excludes `self.mines`, not only `moves_made`. -/
theorem safe_move_skips_mined_cell :
    ((((initialAI 2 2).mark_safe (0, 0)).mark_mine (0, 0)).safes \
      (((initialAI 2 2).mark_safe (0, 0)).mark_mine (0, 0)).moves_made ≠ ∅) ∧
    (((initialAI 2 2).mark_safe (0, 0)).mark_mine (0, 0)).make_safe_move = none := by
  constructor <;> decide

/-- C8 (amended): `make_safe_move` returns some cell of
`safes \ (moves_made ∪ mines)` when that set is non-empty and `None` exactly
otherwise — the code excludes known mines in addition to moves already made;
`make_random_move` returns some board cell outside `moves_made ∪ mines` when
one exists, and `None` exactly when none exists. -/
theorem query_moves_spec (ai : AI) (r : Nat) :
    (∀ c, ai.make_safe_move = some c →
      c ∈ ai.safes ∧ c ∉ ai.moves_made ∧ c ∉ ai.mines) ∧
    (ai.make_safe_move = none ↔ ∀ c ∈ ai.safes, c ∈ ai.moves_made ∨ c ∈ ai.mines) ∧
    (∀ c, ai.make_random_move r = some c →
      0 ≤ c.1 ∧ c.1 < ai.height ∧ 0 ≤ c.2 ∧ c.2 < ai.width ∧
        c ∉ ai.moves_made ∧ c ∉ ai.mines) ∧
    (ai.make_random_move r = none ↔
      ∀ c : Cell, 0 ≤ c.1 → c.1 < ai.height → 0 ≤ c.2 → c.2 < ai.width →
        c ∈ ai.moves_made ∨ c ∈ ai.mines) := by
  refine ⟨fun c h => make_safe_move_some h, make_safe_move_none,
    fun c h => mem_possible_moves.mp (List.getElem?_mem h), ?_⟩
  rw [make_random_move_none, List.eq_nil_iff_forall_not_mem]
  constructor
  · intro h c h1 h2 h3 h4
    by_contra hcon
    push_neg at hcon
    exact h c (mem_possible_moves.mpr ⟨h1, h2, h3, h4, hcon.1, hcon.2⟩)
  · intro h c hc
    rcases mem_possible_moves.mp hc with ⟨h1, h2, h3, h4, h5, h6⟩
    rcases h c h1 h2 h3 h4 with hh | hh
    exacts [h5 hh, h6 hh]

/-- C8 witness: the amended theorem applied at concrete states — a state where
`(0,0)` is safe and unplayed (the safe move is returned and satisfies the
contract), and a 0×0 board (no random move exists). -/
theorem query_moves_spec_witness :
    (((0 : Int), (0 : Int)) ∈ ((initialAI 2 2).mark_safe (0, 0)).safes ∧
      ((0 : Int), (0 : Int)) ∉ ((initialAI 2 2).mark_safe (0, 0)).moves_made ∧
      ((0 : Int), (0 : Int)) ∉ ((initialAI 2 2).mark_safe (0, 0)).mines) ∧
    (initialAI 0 0).make_random_move 0 = none :=
  ⟨(query_moves_spec ((initialAI 2 2).mark_safe (0, 0)) 0).1 (0, 0) (by decide),
    (query_moves_spec (initialAI 0 0) 0).2.2.2.mpr
      (by
        intro c h1 h2 h3 h4
        have hh : c.1 < 0 := h2
        omega)⟩

end Mines
